import Mathlib

/-!
Verification of the SoccerLens ranking & similarity subsystem.

This file gives a shallow embedding of the core of the repository:

* `players/models.py`   — the `Player` record, its derived metrics
  (`goals_per_90`, …), the rule-generated style description and the
  10-dimensional statistics vector;
* `players/vector_search.py` — the similarity engine
  (`find_similar_players` with its `statistical`, `nlp` and `hybrid`
  strategies, the cosine / token-overlap scores and the fallback path);
* `players/sorting.py`  — the sort-option registry and `apply_sorting`.

Modelling conventions:

* Database float columns become `ℚ`; integer columns become `ℤ`;
  primary keys become `ℕ`; nullable columns become `Option _`;
  Python strings that are only tokenized become `List Char`.
* Similarity scores are real numbers (`ℝ`) because cosine similarity
  involves a square root.
* A Django queryset is modelled as a `List Player` in storage order.
  `filter` keeps that order; an `order_by` (explicit, or the implicit
  `Meta.ordering = ['-goals', '-assists', 'name']` of the model) is a
  *stable* sort of that sequence by the requested key, which is the
  deterministic embedding of SQL's tie-unspecified `ORDER BY`; Python's
  own `list.sort` (used on the score lists) is likewise a stable sort,
  which is exact.  Both are rendered with `List.mergeSort`.
* Python `try/except Exception` blocks are modelled with an explicit
  fault oracle `Faults : String → Bool` saying whether the body of the
  given `try` block raises; the handler is then taken verbatim from the
  source.
* `round(x, 2)` is modelled exactly as rounding `x·100` to the nearest
  integer (the half-even/half-up difference at exact `.005` ties is not
  relevant to any property proved here).

Fields of the `Player` model that no embedded operation reads
(`nation`, `squad`, `born_year`, penalty/shot/touch counts, timestamps,
the cached `style_embedding`/`style_description` columns, …) are elided;
the transient `similarity_score` attribute is rendered by returning
`Player × ℝ` pairs instead of mutating the record.
-/

/-- The player record (`players/models.py`, class `Player`), restricted to
the fields read by the ranking and similarity operations. -/
structure Player where
  id : ℕ
  name : String
  last_name : Option String
  position : String
  competition : String
  age : ℚ
  matches_played : ℤ
  minutes : ℤ
  minutes_per_90 : ℚ
  goals : ℤ
  assists : ℤ
  goals_assists : ℤ
  yellow_cards : ℤ
  red_cards : ℤ
  expected_goals : ℚ
  expected_assists : ℚ
  shots_on_target_percentage : ℚ
  pass_completion_percentage : ℚ
  key_passes : ℤ
  tackles : ℤ
  interceptions : ℤ
  blocks : ℤ
  dribble_success_percentage : ℚ
  save_percentage : Option ℚ
  clean_sheets : Option ℤ
  goals_against_per_90 : Option ℚ
  progressive_carries : ℤ
  progressive_passes : ℤ
  deriving DecidableEq

/-- Python `round(x, 2)`: round to two decimal places. -/
def round2 (x : ℚ) : ℚ := (round (x * 100) : ℚ) / 100

/-- `Player.goals_per_90` (property): `round(goals / minutes_per_90, 2)`
when `minutes_per_90 > 0`, else `0.0`. -/
def goals_per_90 (p : Player) : ℚ :=
  if 0 < p.minutes_per_90 then round2 ((p.goals : ℚ) / p.minutes_per_90) else 0

/-- `Player.assists_per_90` (property). -/
def assists_per_90 (p : Player) : ℚ :=
  if 0 < p.minutes_per_90 then round2 ((p.assists : ℚ) / p.minutes_per_90) else 0

/-- `Player.goal_contribution_per_90` (property):
`round(goals_assists / minutes_per_90, 2)` when `minutes_per_90 > 0`. -/
def goal_contribution_per_90 (p : Player) : ℚ :=
  if 0 < p.minutes_per_90 then round2 ((p.goals_assists : ℚ) / p.minutes_per_90) else 0

/-- `Player.minutes_per_game` (property): `round(minutes / matches_played, 1)`
when `matches_played > 0`. -/
def round1 (x : ℚ) : ℚ := (round (x * 10) : ℚ) / 10

def minutes_per_game (p : Player) : ℚ :=
  if 0 < p.matches_played then round1 ((p.minutes : ℚ) / (p.matches_played : ℚ)) else 0

/-- `Player.get_statistics_vector`: the fixed-order 10-dimensional
normalized feature vector. -/
def get_statistics_vector (p : Player) : List ℚ :=
  [ if 0 < goals_per_90 p then min (goals_per_90 p / 1) 1 else 0,
    if 0 < assists_per_90 p then min (assists_per_90 p / (1/2)) 1 else 0,
    if 0 < p.shots_on_target_percentage then p.shots_on_target_percentage / 100 else 0,
    if 0 < p.pass_completion_percentage then p.pass_completion_percentage / 100 else 0,
    if 0 < p.dribble_success_percentage then p.dribble_success_percentage / 100 else 0,
    if 0 < p.minutes_per_90 then min (((p.tackles : ℚ) / p.minutes_per_90) / 5) 1 else 0,
    if 0 < p.minutes_per_90 then min (((p.interceptions : ℚ) / p.minutes_per_90) / 3) 1 else 0,
    if 0 < p.minutes_per_90 then min (((p.progressive_passes : ℚ) / p.minutes_per_90) / 10) 1 else 0,
    if 0 < p.minutes_per_90 then min (((p.progressive_carries : ℚ) / p.minutes_per_90) / 5) 1 else 0,
    min (p.age / 40) 1 ]

/-- `Player.generate_style_description`, the `description_parts` list:
position-based base phrase plus threshold-gated qualifier phrases.
Phrases are modelled as `List Char` (Python strings). -/
def description_parts (p : Player) : List (List Char) :=
  (if "FW".toList <:+: p.position.toList then
      ["attacking player".toList]
        ++ (if 10 < p.goals then ["prolific goalscorer".toList] else [])
        ++ (if 5 < p.assists then ["creative playmaker".toList] else [])
   else if "MF".toList <:+: p.position.toList then
      ["midfielder".toList]
        ++ (if 5 < p.assists then ["creative midfielder".toList] else [])
        ++ (if 20 < p.tackles then ["defensive midfielder".toList] else [])
   else if "DF".toList <:+: p.position.toList then
      ["defender".toList]
        ++ (if 30 < p.tackles then ["strong tackler".toList] else [])
        ++ (if 85 < p.pass_completion_percentage then ["ball-playing defender".toList] else [])
   else if "GK".toList <:+: p.position.toList then
      ["goalkeeper".toList]
        ++ (if p.save_percentage.elim false (fun v => decide (v ≠ 0 ∧ 75 < v)) then
              ["reliable shot-stopper".toList] else [])
   else [])
  ++ (if 60 < p.dribble_success_percentage then ["skilled dribbler".toList] else [])
  ++ (if 85 < p.pass_completion_percentage then ["accurate passer".toList] else [])
  ++ (if 50 < p.shots_on_target_percentage then ["clinical finisher".toList] else [])
  ++ (if 50 < p.progressive_passes then ["progressive passer".toList] else [])
  ++ (if 30 < p.progressive_carries then ["ball carrier".toList] else [])
  ++ (if p.age < 23 then ["young talent".toList]
      else if 30 < p.age then ["experienced player".toList] else [])

/-- Python `" ".join(parts)`. -/
def joinSpace : List (List Char) → List Char
  | [] => []
  | [s] => s
  | s :: rest => s ++ ' ' :: joinSpace rest

/-- `Player.generate_style_description`:
`" ".join(description_parts) if description_parts else "versatile player"`. -/
def generate_style_description (p : Player) : List Char :=
  if description_parts p = [] then "versatile player".toList
  else joinSpace (description_parts p)

/-- Python `str.split()` (split on whitespace runs, dropping empty pieces),
at the character-list level. -/
def splitWS (l : List Char) : List (List Char) :=
  match l with
  | [] => []
  | c :: rest =>
    if c.isWhitespace then splitWS rest
    else (c :: rest.takeWhile (fun d => !d.isWhitespace))
           :: splitWS (rest.dropWhile (fun d => !d.isWhitespace))
termination_by l.length
decreasing_by
· simp only [List.length_cons]; omega
· have h := (List.dropWhile_sublist (l := rest) (fun d => !d.isWhitespace)).length_le
  simp only [List.length_cons]; omega

/-- `text.lower().split()`: the token list of a description. -/
def lowerWords (t : List Char) : List (List Char) :=
  splitWS (t.map Char.toLower)

/-- `VectorSearchService._text_similarity`: Jaccard overlap of the
lower-cased whitespace-tokenized word sets; `0.0` if either set is empty. -/
def text_similarity (t1 t2 : List Char) : ℚ :=
  let words1 := (lowerWords t1).toFinset
  let words2 := (lowerWords t2).toFinset
  if words1 = ∅ ∨ words2 = ∅ then 0
  else ((words1 ∩ words2).card : ℚ) / ((words1 ∪ words2).card : ℚ)

/-- Dot product of two statistic vectors (`np.dot`). -/
def dotList (v w : List ℚ) : ℚ := (List.zipWith (· * ·) v w).sum

/-- `VectorSearchService._cosine_similarity`: zero for a zero vector,
else `v·w / (‖v‖ ‖w‖)` (with the source's redundant second zero-norm
guard kept). -/
noncomputable def cosine_similarity (v w : List ℚ) : ℝ :=
  if v.all (fun x => decide (x = 0)) ∨ w.all (fun x => decide (x = 0)) then 0
  else
    if Real.sqrt ((dotList v v : ℚ) : ℝ) = 0 ∨ Real.sqrt ((dotList w w : ℚ) : ℝ) = 0 then 0
    else ((dotList v w : ℚ) : ℝ) /
      (Real.sqrt ((dotList v v : ℚ) : ℝ) * Real.sqrt ((dotList w w : ℚ) : ℝ))

/-! ### Stable sorting machinery

Python's `list.sort` and SQL `ORDER BY` (under the stable-sequence model
described above) are rendered with `List.mergeSort le` where `le` compares
a sort key drawn from a linear order. -/

/-- Comparator sorting ascending by the key `f` (descending keys are
obtained with `OrderDual`). -/
def leBy {β τ : Type*} [LinearOrder τ] (f : β → τ) : β → β → Bool :=
  fun a b => decide (f a ≤ f b)

theorem leBy_trans {β τ : Type*} [LinearOrder τ] (f : β → τ) :
    ∀ a b c, leBy f a b → leBy f b c → leBy f a c := by
  intro a b c hab hbc
  simp only [leBy, decide_eq_true_eq] at *
  exact le_trans hab hbc

theorem leBy_total {β τ : Type*} [LinearOrder τ] (f : β → τ) :
    ∀ a b, leBy f a b || leBy f b a := by
  intro a b
  simp only [leBy, Bool.or_eq_true, decide_eq_true_eq]
  exact le_total _ _

/-- If `a` occurs strictly before `b` in `l`, then `[a, b]` is a sublist. -/
theorem sublist_pair_of_indexOf_lt {α : Type*} [DecidableEq α] {a b : α} :
    ∀ {l : List α}, a ∈ l → b ∈ l → l.indexOf a < l.indexOf b → List.Sublist [a, b] l := by
  intro l
  induction l with
  | nil => intro h; cases h
  | cons c t ih =>
    intro ha hb hab
    by_cases hac : a = c
    · subst hac
      have hbc : b ≠ a := by
        intro h; subst h; simp at hab
      have hbt : b ∈ t := by
        rcases List.mem_cons.mp hb with h | h
        · exact absurd h hbc
        · exact h
      exact List.Sublist.cons₂ a (List.singleton_sublist.mpr hbt)
    · have hca : c ≠ a := fun h => hac h.symm
      have hia := List.indexOf_cons_ne t hca
      by_cases hbc : b = c
      · subst hbc
        rw [List.indexOf_cons_self] at hab
        omega
      · have hcb : c ≠ b := fun h => hbc h.symm
        have hib := List.indexOf_cons_ne t hcb
        have hat : a ∈ t := by
          rcases List.mem_cons.mp ha with h | h
          · exact absurd h hac
          · exact h
        have hbt : b ∈ t := by
          rcases List.mem_cons.mp hb with h | h
          · exact absurd h hbc
          · exact h
        refine List.Sublist.cons c ?_
        refine ih hat hbt ?_
        rw [hia, hib] at hab
        omega

/-- In a duplicate-free list, a pair sublist means the first element has the
smaller index. -/
theorem indexOf_lt_of_sublist_pair {α : Type*} [DecidableEq α] {a b : α} :
    ∀ {l : List α}, l.Nodup → List.Sublist [a, b] l → l.indexOf a < l.indexOf b := by
  intro l
  induction l with
  | nil => intro _ h; cases h
  | cons c t ih =>
    intro hnd h
    cases h with
    | cons _ h' =>
      have hat : a ∈ t := h'.subset (by simp)
      have hbt : b ∈ t := h'.subset (by simp)
      have hct : c ∉ t := (List.nodup_cons.mp hnd).1
      have hca : c ≠ a := fun h => hct (h ▸ hat)
      have hcb : c ≠ b := fun h => hct (h ▸ hbt)
      rw [List.indexOf_cons_ne t hca, List.indexOf_cons_ne t hcb]
      have := ih (List.nodup_cons.mp hnd).2 h'
      omega
    | cons₂ _ h' =>
      have hbt : b ∈ t := h'.subset (by simp)
      have hct : a ∉ t := (List.nodup_cons.mp hnd).1
      have hab : a ≠ b := fun h => hct (h ▸ hbt)
      rw [List.indexOf_cons_self, List.indexOf_cons_ne t hab]
      omega

/-- In a duplicate-free list the index of `l[i]` is `i`. -/
theorem indexOf_getElem_self {α : Type*} [DecidableEq α] {l : List α}
    (hnd : l.Nodup) (i : ℕ) (hi : i < l.length) : l.indexOf l[i] = i := by
  have hm : l[i] ∈ l := List.getElem_mem hi
  have hlt : l.indexOf l[i] < l.length := List.indexOf_lt_length.mpr hm
  have hget : l[l.indexOf l[i]] = l[i] := List.getElem_indexOf hlt
  exact (hnd.getElem_inj_iff).mp hget

/-- Index of an element, with the `BEq` instance induced by
`DecidableEq` fixed once and for all. -/
def idxOf {α : Type*} [DecidableEq α] (a : α) (l : List α) : ℕ := List.indexOf a l

/-- Stability of `mergeSort` on a duplicate-free list, stated as
lexicographic sortedness: the output is pairwise ordered by `le`, and on
ties (where `le` holds both ways) the input order decides. -/
theorem mergeSort_stable_sorted {α : Type*} [DecidableEq α] (le : α → α → Bool)
    (htr : ∀ a b c, le a b → le b c → le a c) (hto : ∀ a b, le a b || le b a)
    (l : List α) (hnd : l.Nodup) :
    (l.mergeSort le).Pairwise
      (fun a b => le a b = true ∧ (le b a = true → idxOf a l < idxOf b l)) := by
  simp only [idxOf]
  have hsorted := List.sorted_mergeSort htr hto l
  have hperm := List.mergeSort_perm l le
  have hout_nd : (l.mergeSort le).Nodup := (hperm.nodup_iff).mpr hnd
  rw [List.pairwise_iff_getElem]
  intro i j hi hj hij
  have hle : le ((l.mergeSort le)[i]) ((l.mergeSort le)[j]) = true :=
    (List.pairwise_iff_getElem.mp hsorted) i j hi hj hij
  refine ⟨hle, fun hba => ?_⟩
  have hma : (l.mergeSort le)[i] ∈ l := hperm.subset (List.getElem_mem hi)
  have hmb : (l.mergeSort le)[j] ∈ l := hperm.subset (List.getElem_mem hj)
  have hne : (l.mergeSort le)[i] ≠ (l.mergeSort le)[j] := by
    intro h
    have := (hout_nd.getElem_inj_iff).mp h
    omega
  by_contra hidx
  have hblt : l.indexOf ((l.mergeSort le)[j]) < l.indexOf ((l.mergeSort le)[i]) := by
    have hneidx : l.indexOf ((l.mergeSort le)[i]) ≠ l.indexOf ((l.mergeSort le)[j]) := by
      intro h
      exact hne ((List.indexOf_inj hma hmb).mp h)
    omega
  have hsub : List.Sublist [(l.mergeSort le)[j], (l.mergeSort le)[i]] l :=
    sublist_pair_of_indexOf_lt hmb hma hblt
  have hpair : List.Pairwise (fun a b => le a b = true)
      [(l.mergeSort le)[j], (l.mergeSort le)[i]] :=
    List.pairwise_pair.mpr hba
  have hsub' : List.Sublist [(l.mergeSort le)[j], (l.mergeSort le)[i]] (l.mergeSort le) :=
    List.sublist_mergeSort htr hto hpair hsub
  have := indexOf_lt_of_sublist_pair hout_nd hsub'
  rw [indexOf_getElem_self hout_nd i hi, indexOf_getElem_self hout_nd j hj] at this
  omega

/-! ### The similarity engine (`players/vector_search.py`) -/

/-- Fault oracle: whether the body of the named `try` block raises. -/
def Faults : Type := String → Bool

/-- The no-fault oracle (normal operation). -/
def noFaults : Faults := fun _ => false

/-- Sort key of the model's default ordering
`Meta.ordering = ['-goals', '-assists', 'name']`. -/
def metaKey (p : Player) : Lex (ℤᵒᵈ × Lex (ℤᵒᵈ × String)) :=
  toLex (OrderDual.toDual p.goals, toLex (OrderDual.toDual p.assists, p.name))

/-- Comparator of the model's default ordering. -/
def metaLe : Player → Player → Bool := leBy metaKey

/-- A `Player.objects.filter(...)` queryset without an explicit
`order_by`: the implicit `Meta.ordering` applies. -/
def defaultOrder (l : List Player) : List Player := l.mergeSort metaLe

/-- Candidate pool of the statistical strategy:
`Player.objects.filter(position=.., competition=..).exclude(id=..)`. -/
def statPool (db : List Player) (p : Player) : List Player :=
  defaultOrder (db.filter (fun o =>
    decide (o.position = p.position ∧ o.competition = p.competition ∧ o.id ≠ p.id)))

/-- Statistical similarity score of a candidate. -/
noncomputable def statScore (p o : Player) : ℝ :=
  cosine_similarity (get_statistics_vector p) (get_statistics_vector o)

/-- One iteration of the `similarities` accumulation loop: compute the
candidate's score, keep the `(candidate, score)` pair when the score
reaches the threshold. -/
noncomputable def keptFn (score : Player → ℝ) (thr : ℝ) : Player → Option (Player × ℝ) :=
  fun o => if thr ≤ score o then some (o, score o) else none

/-- The `similarities` list built by `_find_statistical_similarities`:
candidates whose score reaches the threshold, paired with their score. -/
noncomputable def statKept (db : List Player) (p : Player) (thr : ℝ) : List (Player × ℝ) :=
  (statPool db p).filterMap (keptFn (statScore p) thr)

/-- `similarities.sort(key=lambda x: x[1], reverse=True)`: stable sort
descending by score. -/
noncomputable def scoreDesc : (Player × ℝ) → (Player × ℝ) → Bool :=
  leBy (fun x => OrderDual.toDual x.2)

/-- Body of `_find_statistical_similarities` (the `try` block). -/
noncomputable def find_statistical_body (db : List Player) (p : Player)
    (limit : ℕ) (thr : ℝ) : List (Player × ℝ) :=
  ((statKept db p thr).mergeSort scoreDesc).take limit

/-- Candidate pool of the NLP strategy:
`Player.objects.filter(position=..).exclude(id=..)`. -/
def nlpPool (db : List Player) (p : Player) : List Player :=
  defaultOrder (db.filter (fun o => decide (o.position = p.position ∧ o.id ≠ p.id)))

/-- NLP similarity score of a candidate. -/
noncomputable def nlpScore (p o : Player) : ℝ :=
  ((text_similarity (generate_style_description p) (generate_style_description o) : ℚ) : ℝ)

/-- The `similarities` list built by `_find_nlp_similarities`. -/
noncomputable def nlpKept (db : List Player) (p : Player) (thr : ℝ) : List (Player × ℝ) :=
  (nlpPool db p).filterMap (keptFn (nlpScore p) thr)

/-- Body of `_find_nlp_similarities` (the `try` block). -/
noncomputable def find_nlp_body (db : List Player) (p : Player)
    (limit : ℕ) (thr : ℝ) : List (Player × ℝ) :=
  ((nlpKept db p thr).mergeSort scoreDesc).take limit

/-- Sort key of the fallback's `order_by('-goals', '-assists')`. -/
def gaKey (p : Player) : Lex (ℤᵒᵈ × ℤᵒᵈ) :=
  toLex (OrderDual.toDual p.goals, OrderDual.toDual p.assists)

/-- Comparator of `order_by('-goals', '-assists')`. -/
def gaLe : Player → Player → Bool := leBy gaKey

/-- Fallback candidate pool: same position, age within ±3, same
competition, target excluded, ordered by goals then assists descending. -/
def fallbackPool (db : List Player) (p : Player) : List Player :=
  (db.filter (fun o =>
    decide (o.position = p.position ∧ p.age - 3 ≤ o.age ∧ o.age ≤ p.age + 3 ∧
      o.competition = p.competition ∧ o.id ≠ p.id))).mergeSort gaLe

/-- Body of `_fallback_similarity_search` (the `try` block): truncate the
pool, then attach the fixed score `0.5`. -/
noncomputable def fallback_body (db : List Player) (p : Player) (limit : ℕ) :
    List (Player × ℝ) :=
  ((fallbackPool db p).take limit).map (fun q => (q, (1/2 : ℝ)))

/-- `VectorSearchService._fallback_similarity_search`: its own
`except` handler returns the empty list. -/
noncomputable def fallback_similarity_search (f : Faults) (db : List Player)
    (p : Player) (limit : ℕ) : List (Player × ℝ) :=
  if f "fallback" then [] else fallback_body db p limit

/-- `VectorSearchService._find_statistical_similarities`: the `try` body,
with any fault absorbed by the fallback path. -/
noncomputable def find_statistical_similarities (f : Faults) (db : List Player)
    (p : Player) (limit : ℕ) (thr : ℝ) : List (Player × ℝ) :=
  if f "statistical" then fallback_similarity_search f db p limit
  else find_statistical_body db p limit thr

/-- `VectorSearchService._find_nlp_similarities`. -/
noncomputable def find_nlp_similarities (f : Faults) (db : List Player)
    (p : Player) (limit : ℕ) (thr : ℝ) : List (Player × ℝ) :=
  if f "nlp" then fallback_similarity_search f db p limit
  else find_nlp_body db p limit thr

/-- One step of building the `all_similar` dict from the NLP list: update
the `nlp_score` of an existing id, else append a new entry with
`statistical_score = 0.0`.  Entries are `(player, statistical, nlp)`. -/
def insertNlp : List (Player × ℝ × ℝ) → Player → ℝ → List (Player × ℝ × ℝ)
  | [], q, s => [(q, 0, s)]
  | e :: rest, q, s =>
    if e.1.id = q.id then (e.1, e.2.1, s) :: rest
    else e :: insertNlp rest q s

/-- Body of `_find_hybrid_similarities` given the two sub-strategy
results: union by id in a dict (insertion-ordered), fuse scores with
weights `0.6`/`0.4`, stable-sort descending, truncate. -/
noncomputable def hybrid_body (stat nlp : List (Player × ℝ)) (limit : ℕ) :
    List (Player × ℝ) :=
  let merged := nlp.foldl (fun acc x => insertNlp acc x.1 x.2)
    (stat.map (fun x => (x.1, x.2, (0 : ℝ))))
  let hybrid_scores := merged.map (fun e => (e.1, e.2.1 * (6/10) + e.2.2 * (4/10)))
  (hybrid_scores.mergeSort scoreDesc).take limit

/-- `VectorSearchService._find_hybrid_similarities`: run both
sub-strategies with `limit * 2`, fuse, with faults absorbed by the
fallback path. -/
noncomputable def find_hybrid_similarities (f : Faults) (db : List Player)
    (p : Player) (limit : ℕ) (thr : ℝ) : List (Player × ℝ) :=
  if f "hybrid" then fallback_similarity_search f db p limit
  else hybrid_body (find_statistical_similarities f db p (limit * 2) thr)
    (find_nlp_similarities f db p (limit * 2) thr) limit

/-- `VectorSearchService.find_similar_players`: strategy dispatch;
an unrecognized method raises `ValueError`. -/
noncomputable def find_similar_players (f : Faults) (db : List Player) (p : Player)
    (limit : ℕ) (thr : ℝ) (method : String) : Except String (List (Player × ℝ)) :=
  if method = "statistical" then .ok (find_statistical_similarities f db p limit thr)
  else if method = "nlp" then .ok (find_nlp_similarities f db p limit thr)
  else if method = "hybrid" then .ok (find_hybrid_similarities f db p limit thr)
  else .error ("Invalid method: " ++ method)

/-! ### The sort registry (`players/sorting.py`) -/

/-- `PlayerSortingManager.SORT_OPTIONS`, reduced to key → field (the
display name, description and category metadata play no role in the
sorting semantics). -/
def SORT_OPTIONS : List (String × String) :=
  [ ("name", "last_name"),
    ("goals", "goals"),
    ("assists", "assists"),
    ("goals_assists", "goals_assists"),
    ("goals_per_90", "goals_per_90"),
    ("assists_per_90", "assists_per_90"),
    ("goal_contribution_per_90", "goal_contribution_per_90"),
    ("expected_goals", "expected_goals"),
    ("expected_assists", "expected_assists"),
    ("shots_on_target_percentage", "shots_on_target_percentage"),
    ("pass_completion_percentage", "pass_completion_percentage"),
    ("key_passes", "key_passes"),
    ("tackles", "tackles"),
    ("interceptions", "interceptions"),
    ("blocks", "blocks"),
    ("dribble_success_percentage", "dribble_success_percentage"),
    ("progressive_carries", "progressive_carries"),
    ("progressive_passes", "progressive_passes"),
    ("save_percentage", "save_percentage"),
    ("clean_sheets", "clean_sheets"),
    ("goals_against_per_90", "goals_against_per_90"),
    ("matches_played", "matches_played"),
    ("minutes", "minutes"),
    ("minutes_per_game", "minutes_per_game"),
    ("yellow_cards", "yellow_cards"),
    ("red_cards", "red_cards"),
    ("age", "age") ]

/-- `PlayerSortingManager.is_valid_sort_option`. -/
def is_valid_sort_option (sort_key : String) : Bool :=
  (SORT_OPTIONS.find? (fun e => decide (e.1 = sort_key))).isSome

/-- `PlayerSortingManager.get_sort_field` (`none` models the
`ValueError`). -/
def get_sort_field (sort_key : String) : Option String :=
  (SORT_OPTIONS.find? (fun e => decide (e.1 = sort_key))).map (fun e => e.2)

/-- A nullable column, ordered with SQL `NULL`s first. -/
def optVal {τ : Type*} (o : Option τ) : WithBot τ :=
  match o with
  | none => ⊥
  | some v => (v : WithBot τ)

/-- Comparator of `order_by(field)` for a stored column. -/
def fieldLeB (field : String) : Player → Player → Bool :=
  match field with
  | "last_name" => leBy (fun p => optVal p.last_name)
  | "goals" => leBy (fun p => p.goals)
  | "assists" => leBy (fun p => p.assists)
  | "goals_assists" => leBy (fun p => p.goals_assists)
  | "expected_goals" => leBy (fun p => p.expected_goals)
  | "expected_assists" => leBy (fun p => p.expected_assists)
  | "shots_on_target_percentage" => leBy (fun p => p.shots_on_target_percentage)
  | "pass_completion_percentage" => leBy (fun p => p.pass_completion_percentage)
  | "key_passes" => leBy (fun p => p.key_passes)
  | "tackles" => leBy (fun p => p.tackles)
  | "interceptions" => leBy (fun p => p.interceptions)
  | "blocks" => leBy (fun p => p.blocks)
  | "dribble_success_percentage" => leBy (fun p => p.dribble_success_percentage)
  | "progressive_carries" => leBy (fun p => p.progressive_carries)
  | "progressive_passes" => leBy (fun p => p.progressive_passes)
  | "save_percentage" => leBy (fun p => optVal p.save_percentage)
  | "clean_sheets" => leBy (fun p => optVal p.clean_sheets)
  | "goals_against_per_90" => leBy (fun p => optVal p.goals_against_per_90)
  | "matches_played" => leBy (fun p => p.matches_played)
  | "minutes" => leBy (fun p => p.minutes)
  | "yellow_cards" => leBy (fun p => p.yellow_cards)
  | "red_cards" => leBy (fun p => p.red_cards)
  | "age" => leBy (fun p => p.age)
  | _ => fun _ _ => true

/-- Direction flag: `order_by('-field')` reverses the comparator. -/
def revComp {β : Type*} (rev : Bool) (le : β → β → Bool) : β → β → Bool :=
  if rev then (fun a b => le b a) else le

/-- `queryset.order_by(field)` / `order_by('-field')` on a stored column. -/
def order_by (qs : List Player) (field : String) (rev : Bool) : List Player :=
  qs.mergeSort (revComp rev (fieldLeB field))

/-- The `goals_per_90_calc` annotation:
`Case(When(minutes_per_90__gt=0, then=F('goals') / F('minutes_per_90')), default=0.0)`. -/
def goals_per_90_calc (p : Player) : ℚ :=
  if 0 < p.minutes_per_90 then (p.goals : ℚ) / p.minutes_per_90 else 0

/-- The `assists_per_90_calc` annotation. -/
def assists_per_90_calc (p : Player) : ℚ :=
  if 0 < p.minutes_per_90 then (p.assists : ℚ) / p.minutes_per_90 else 0

/-- The `goal_contribution_per_90_calc` annotation. -/
def goal_contribution_per_90_calc (p : Player) : ℚ :=
  if 0 < p.minutes_per_90 then (p.goals_assists : ℚ) / p.minutes_per_90 else 0

/-- The `minutes_per_game_calc` annotation (exact rational division is
used here; whether the SQL backend truncates the integer quotient is
backend-dependent and irrelevant to the verified zero-guard). -/
def minutes_per_game_calc (p : Player) : ℚ :=
  if 0 < p.matches_played then (p.minutes : ℚ) / (p.matches_played : ℚ) else 0

/-- The four derived-metric fields special-cased by `apply_sorting`. -/
def calculatedFields : List String :=
  ["goals_per_90", "assists_per_90", "goal_contribution_per_90", "minutes_per_game"]

/-- `PlayerSortingManager._apply_calculated_sort`: annotate the derived
value, then `order_by` the annotation (with its unreachable
original-field fallback branch kept). -/
def apply_calculated_sort (qs : List Player) (field : String) (rev : Bool) :
    List Player :=
  match field with
  | "goals_per_90" => qs.mergeSort (revComp rev (leBy goals_per_90_calc))
  | "assists_per_90" => qs.mergeSort (revComp rev (leBy assists_per_90_calc))
  | "goal_contribution_per_90" =>
      qs.mergeSort (revComp rev (leBy goal_contribution_per_90_calc))
  | "minutes_per_game" => qs.mergeSort (revComp rev (leBy minutes_per_game_calc))
  | _ => order_by qs field rev

/-- `PlayerSortingManager.apply_sorting`: validate the key (`ValueError`
modelled as `Except.error`), resolve the field, dispatch on
calculated/stored. -/
def apply_sorting (qs : List Player) (sort_key : String) (rev : Bool) :
    Except String (List Player) :=
  match get_sort_field sort_key with
  | none => .error ("Invalid sort option: " ++ sort_key)
  | some field =>
    if field ∈ calculatedFields then .ok (apply_calculated_sort qs field rev)
    else .ok (order_by qs field rev)

/-! ### Example records used in witnesses and counterexamples -/

/-- A base record with all statistics zero / null. -/
def P0 : Player :=
  { id := 0, name := "", last_name := none, position := "", competition := "",
    age := 0, matches_played := 0, minutes := 0, minutes_per_90 := 0,
    goals := 0, assists := 0, goals_assists := 0, yellow_cards := 0,
    red_cards := 0, expected_goals := 0, expected_assists := 0,
    shots_on_target_percentage := 0, pass_completion_percentage := 0,
    key_passes := 0, tackles := 0, interceptions := 0, blocks := 0,
    dribble_success_percentage := 0, save_percentage := none,
    clean_sheets := none, goals_against_per_90 := none,
    progressive_carries := 0, progressive_passes := 0 }

/-- Two records tied on `goals`, ids in descending order. -/
def pA : Player := { P0 with id := 1, goals := 5 }

def pB : Player := { P0 with id := 2, goals := 5 }

/-- A similarity target and two candidates with identical statistics
vectors (`minutes_per_90 = 0` blanks the per-90 dimensions, so only the
age dimension is non-zero) but different `goals`. -/
def pT : Player := { P0 with id := 10, position := "FW", competition := "L1", age := 20 }

def pC1 : Player := { P0 with id := 1, position := "FW", competition := "L1", age := 20, goals := 5 }

def pC2 : Player := { P0 with id := 2, position := "FW", competition := "L1", age := 20, goals := 7 }

/-- A record firing no description rule. -/
def pVers : Player := { P0 with age := 25 }

/-! ### Claim C8 -/

/-- Claim C8: for every record with `minutes_per_90 = 0`, sorting by the
derived metric `goals_per_90` evaluates that record's derived value to
exactly `0` and never raises a division fault; the same zero-guard
applies to `assists_per_90`, `goal_contribution_per_90` (guard
`minutes_per_90 ≤ 0`) and `minutes_per_game` (guard
`matches_played ≤ 0`), both in the sort annotations and in the model
properties. -/
theorem C8_zero_guard :
    (∀ p : Player, p.minutes_per_90 = 0 → goals_per_90_calc p = 0 ∧ goals_per_90 p = 0)
    ∧ (∀ p : Player, p.minutes_per_90 ≤ 0 →
        goals_per_90_calc p = 0 ∧ assists_per_90_calc p = 0 ∧
        goal_contribution_per_90_calc p = 0 ∧
        goals_per_90 p = 0 ∧ assists_per_90 p = 0 ∧ goal_contribution_per_90 p = 0)
    ∧ (∀ p : Player, p.matches_played ≤ 0 →
        minutes_per_game_calc p = 0 ∧ minutes_per_game p = 0)
    ∧ (∀ (qs : List Player) (rev : Bool),
        ∃ l, apply_sorting qs "goals_per_90" rev = .ok l ∧ l.Perm qs) := by
  refine ⟨?_, ?_, ?_, ?_⟩
  · intro p h
    have h' : ¬ (0 < p.minutes_per_90) := by rw [h]; exact lt_irrefl 0
    simp [goals_per_90_calc, goals_per_90, h']
  · intro p h
    have h' : ¬ (0 < p.minutes_per_90) := not_lt.mpr h
    simp [goals_per_90_calc, assists_per_90_calc, goal_contribution_per_90_calc,
      goals_per_90, assists_per_90, goal_contribution_per_90, h']
  · intro p h
    have h' : ¬ (0 < p.matches_played) := not_lt.mpr h
    simp [minutes_per_game_calc, minutes_per_game, h']
  · intro qs rev
    exact ⟨qs.mergeSort (revComp rev (leBy goals_per_90_calc)), rfl,
      List.mergeSort_perm qs _⟩

theorem C8_zero_guard_witness :
    goals_per_90_calc P0 = 0 ∧ goals_per_90 P0 = 0 ∧ minutes_per_game P0 = 0 ∧
    ∃ l, apply_sorting [P0] "goals_per_90" false = .ok l ∧ l.Perm [P0] :=
  ⟨(C8_zero_guard.1 P0 rfl).1, (C8_zero_guard.1 P0 rfl).2,
    (C8_zero_guard.2.2.1 P0 (by decide)).2, C8_zero_guard.2.2.2 [P0] false⟩

/-! ### Claim C3 -/

/-- Claim C3: `find_similar_players` raises `InvalidStrategy`
(`ValueError`) for every strategy value outside
`{statistical, nlp, hybrid}`, and for every valid strategy it never
propagates any other exception: whatever the fault oracle says, the
caller receives `Except.ok` with some list, and a fault inside a
strategy's `try` body diverts to the fallback path. -/
theorem C3_strategy_dispatch :
    (∀ (f : Faults) (db : List Player) (p : Player) (limit : ℕ) (thr : ℝ) (method : String),
      method ∉ (["statistical", "nlp", "hybrid"] : List String) →
        find_similar_players f db p limit thr method = .error ("Invalid method: " ++ method))
    ∧ (∀ (f : Faults) (db : List Player) (p : Player) (limit : ℕ) (thr : ℝ) (method : String),
      method ∈ (["statistical", "nlp", "hybrid"] : List String) →
        ∃ l, find_similar_players f db p limit thr method = .ok l)
    ∧ (∀ (f : Faults) (db : List Player) (p : Player) (limit : ℕ) (thr : ℝ),
        f "statistical" = true →
        find_statistical_similarities f db p limit thr = fallback_similarity_search f db p limit)
    ∧ (∀ (f : Faults) (db : List Player) (p : Player) (limit : ℕ) (thr : ℝ),
        f "nlp" = true →
        find_nlp_similarities f db p limit thr = fallback_similarity_search f db p limit)
    ∧ (∀ (f : Faults) (db : List Player) (p : Player) (limit : ℕ) (thr : ℝ),
        f "hybrid" = true →
        find_hybrid_similarities f db p limit thr = fallback_similarity_search f db p limit) := by
  refine ⟨?_, ?_, ?_, ?_, ?_⟩
  · intro f db p limit thr method hm
    simp only [List.mem_cons, List.mem_singleton, not_or] at hm
    obtain ⟨h1, h2, h3, -⟩ := hm
    simp only [find_similar_players, if_neg h1, if_neg h2]
    rw [if_neg h3]
  · intro f db p limit thr method hm
    simp only [List.mem_cons, List.mem_singleton] at hm
    rcases hm with h | h | h | h
    · exact ⟨_, by rw [h]; rfl⟩
    · exact ⟨_, by rw [h]; rfl⟩
    · exact ⟨_, by rw [h]; rfl⟩
    · cases h
  · intro f db p limit thr h
    simp only [find_statistical_similarities, if_pos h]
  · intro f db p limit thr h
    simp only [find_nlp_similarities, if_pos h]
  · intro f db p limit thr h
    simp only [find_hybrid_similarities, if_pos h]

theorem C3_strategy_dispatch_witness :
    find_similar_players noFaults [] P0 5 (7/10) "foo" = .error ("Invalid method: " ++ "foo")
    ∧ ∃ l, find_similar_players noFaults [] P0 5 (7/10) "hybrid" = .ok l :=
  ⟨C3_strategy_dispatch.1 noFaults [] P0 5 (7/10) "foo" (by decide),
    C3_strategy_dispatch.2.1 noFaults [] P0 5 (7/10) "hybrid" (by decide)⟩

/-! ### Claim C6 -/

/-- The comparator of `order_by('-goals', '-assists')` spells out to
goals descending, ties by assists descending. -/
theorem gaLe_iff (a b : Player) :
    gaLe a b = true ↔ (b.goals < a.goals ∨ (a.goals = b.goals ∧ b.assists ≤ a.assists)) := by
  simp only [gaLe, leBy, gaKey, decide_eq_true_eq, Prod.Lex.le_iff,
    OrderDual.toDual_lt_toDual, OrderDual.toDual_le_toDual, OrderDual.toDual_inj]

/-- Claim C6: for every target and limit, the fallback path selects
candidates with the target's position and competition whose age lies
within ±3 years of the target's age, excluding the target, orders them
by goals descending then assists descending, truncates to `limit`, and
assigns every returned candidate the fixed score `0.5`. -/
theorem C6_fallback (db : List Player) (p : Player) (limit : ℕ) :
    ∃ l : List Player,
      l.Perm (db.filter (fun o =>
        decide (o.position = p.position ∧ p.age - 3 ≤ o.age ∧ o.age ≤ p.age + 3 ∧
          o.competition = p.competition ∧ o.id ≠ p.id)))
      ∧ l.Pairwise (fun a b => b.goals < a.goals ∨ (a.goals = b.goals ∧ b.assists ≤ a.assists))
      ∧ fallback_body db p limit = (l.take limit).map (fun q => (q, (1/2 : ℝ)))
      ∧ (∀ x ∈ fallback_body db p limit, x.2 = (1/2 : ℝ) ∧ x.1.position = p.position ∧
          p.age - 3 ≤ x.1.age ∧ x.1.age ≤ p.age + 3 ∧ x.1.competition = p.competition ∧
          x.1.id ≠ p.id)
      ∧ (fallback_body db p limit).length = min limit (db.filter (fun o =>
          decide (o.position = p.position ∧ p.age - 3 ≤ o.age ∧ o.age ≤ p.age + 3 ∧
            o.competition = p.competition ∧ o.id ≠ p.id))).length := by
  refine ⟨fallbackPool db p, List.mergeSort_perm _ _, ?_, rfl, ?_, ?_⟩
  · have hs := List.sorted_mergeSort (leBy_trans gaKey) (leBy_total gaKey)
      (db.filter (fun o =>
        decide (o.position = p.position ∧ p.age - 3 ≤ o.age ∧ o.age ≤ p.age + 3 ∧
          o.competition = p.competition ∧ o.id ≠ p.id)))
    exact hs.imp (fun h => (gaLe_iff _ _).mp h)
  · intro x hx
    simp only [fallback_body, List.mem_map] at hx
    obtain ⟨q, hq, rfl⟩ := hx
    have hq' : q ∈ fallbackPool db p := List.take_subset _ _ hq
    simp only [fallbackPool, List.mem_mergeSort, List.mem_filter,
      decide_eq_true_eq] at hq'
    exact ⟨rfl, hq'.2.1, hq'.2.2.1, hq'.2.2.2.1, hq'.2.2.2.2.1, hq'.2.2.2.2.2⟩
  · simp only [fallback_body, List.length_map, List.length_take, fallbackPool,
      List.length_mergeSort]

/-! ### Claim C5 -/

/-- Characterization of the `similarities` accumulation loop: exactly the
pool members whose score reaches the threshold are kept, with their
score. -/
theorem mem_filterMap_score {score : Player → ℝ} {pool : List Player} {thr : ℝ}
    {x : Player × ℝ} :
    x ∈ pool.filterMap (keptFn score thr) ↔
      x.1 ∈ pool ∧ x.2 = score x.1 ∧ thr ≤ x.2 := by
  rw [List.mem_filterMap]
  constructor
  · rintro ⟨o, ho, he⟩
    simp only [keptFn] at he
    by_cases h : thr ≤ score o
    · rw [if_pos h] at he
      cases he
      exact ⟨ho, rfl, h⟩
    · rw [if_neg h] at he
      cases he
  · obtain ⟨a, b⟩ := x
    rintro ⟨h1, h2, h3⟩
    dsimp only at h1 h2 h3
    subst h2
    exact ⟨a, h1, by simp only [keptFn]; rw [if_pos h3]⟩

/-- Claim C5: the statistical and NLP strategies keep exactly the
candidates whose score is at least the similarity threshold (discarding
those strictly below), and when no candidate reaches the threshold they
return the empty list; absent a fault, the strategies run their bodies —
the fallback is not consulted. -/
theorem C5_threshold_filter (db : List Player) (p : Player) (limit : ℕ) (thr : ℝ) :
    (∀ x ∈ statKept db p thr, x.1 ∈ statPool db p ∧ x.2 = statScore p x.1 ∧ thr ≤ x.2)
    ∧ (∀ o ∈ statPool db p, thr ≤ statScore p o → (o, statScore p o) ∈ statKept db p thr)
    ∧ (∀ x ∈ find_statistical_body db p limit thr, thr ≤ x.2)
    ∧ ((∀ o ∈ statPool db p, statScore p o < thr) → find_statistical_body db p limit thr = [])
    ∧ (∀ x ∈ nlpKept db p thr, x.1 ∈ nlpPool db p ∧ x.2 = nlpScore p x.1 ∧ thr ≤ x.2)
    ∧ (∀ o ∈ nlpPool db p, thr ≤ nlpScore p o → (o, nlpScore p o) ∈ nlpKept db p thr)
    ∧ (∀ x ∈ find_nlp_body db p limit thr, thr ≤ x.2)
    ∧ ((∀ o ∈ nlpPool db p, nlpScore p o < thr) → find_nlp_body db p limit thr = [])
    ∧ find_statistical_similarities noFaults db p limit thr = find_statistical_body db p limit thr
    ∧ find_nlp_similarities noFaults db p limit thr = find_nlp_body db p limit thr := by
  refine ⟨?_, ?_, ?_, ?_, ?_, ?_, ?_, ?_, rfl, rfl⟩
  · intro x hx
    exact mem_filterMap_score.mp hx
  · intro o ho hthr
    exact mem_filterMap_score.mpr ⟨ho, rfl, hthr⟩
  · intro x hx
    have hx' : x ∈ statKept db p thr :=
      (List.mem_mergeSort).mp (List.take_subset _ _ hx)
    exact (mem_filterMap_score.mp hx').2.2
  · intro hall
    have hk : statKept db p thr = [] := by
      rw [statKept, List.filterMap_eq_nil_iff]
      intro o ho
      simp only [keptFn]
      rw [if_neg (not_le.mpr (hall o ho))]
    simp only [find_statistical_body, hk, List.mergeSort_nil, List.take_nil]
  · intro x hx
    exact mem_filterMap_score.mp hx
  · intro o ho hthr
    exact mem_filterMap_score.mpr ⟨ho, rfl, hthr⟩
  · intro x hx
    have hx' : x ∈ nlpKept db p thr :=
      (List.mem_mergeSort).mp (List.take_subset _ _ hx)
    exact (mem_filterMap_score.mp hx').2.2
  · intro hall
    have hk : nlpKept db p thr = [] := by
      rw [nlpKept, List.filterMap_eq_nil_iff]
      intro o ho
      simp only [keptFn]
      rw [if_neg (not_le.mpr (hall o ho))]
    simp only [find_nlp_body, hk, List.mergeSort_nil, List.take_nil]

theorem C5_threshold_filter_witness :
    find_statistical_body [] pT 10 (7/10) = [] ∧ find_nlp_body [] pT 10 (7/10) = [] :=
  ⟨(C5_threshold_filter [] pT 10 (7/10)).2.2.2.1
      (by intro o ho; simp [statPool, defaultOrder] at ho),
    (C5_threshold_filter [] pT 10 (7/10)).2.2.2.2.2.2.2.1
      (by intro o ho; simp [nlpPool, defaultOrder] at ho)⟩

/-! ### Claim C7 -/

/-- Every member of the statistical candidate pool differs from the
target id. -/
theorem statPool_id_ne (db : List Player) (p : Player) :
    ∀ o ∈ statPool db p, o.id ≠ p.id := by
  intro o ho
  simp only [statPool, defaultOrder, List.mem_mergeSort, List.mem_filter,
    decide_eq_true_eq] at ho
  exact ho.2.2.2

/-- Every member of the NLP candidate pool differs from the target id. -/
theorem nlpPool_id_ne (db : List Player) (p : Player) :
    ∀ o ∈ nlpPool db p, o.id ≠ p.id := by
  intro o ho
  simp only [nlpPool, defaultOrder, List.mem_mergeSort, List.mem_filter,
    decide_eq_true_eq] at ho
  exact ho.2.2

/-- Every member of the fallback result differs from the target id. -/
theorem fallback_id_ne (f : Faults) (db : List Player) (p : Player) (limit : ℕ) :
    ∀ x ∈ fallback_similarity_search f db p limit, x.1.id ≠ p.id := by
  intro x hx
  unfold fallback_similarity_search at hx
  split at hx
  · cases hx
  · simp only [fallback_body, List.mem_map] at hx
    obtain ⟨q, hq, rfl⟩ := hx
    have hq' : q ∈ fallbackPool db p := List.take_subset _ _ hq
    simp only [fallbackPool, List.mem_mergeSort, List.mem_filter,
      decide_eq_true_eq] at hq'
    exact hq'.2.2.2.2.2

/-- Members of the statistical strategy result differ from the target
id, for every fault pattern. -/
theorem find_statistical_id_ne (f : Faults) (db : List Player) (p : Player)
    (limit : ℕ) (thr : ℝ) :
    ∀ x ∈ find_statistical_similarities f db p limit thr, x.1.id ≠ p.id := by
  intro x hx
  unfold find_statistical_similarities at hx
  split at hx
  · exact fallback_id_ne f db p limit x hx
  · have hx' : x ∈ statKept db p thr :=
      (List.mem_mergeSort).mp (List.take_subset _ _ hx)
    exact statPool_id_ne db p x.1 (mem_filterMap_score.mp hx').1

/-- Members of the NLP strategy result differ from the target id. -/
theorem find_nlp_id_ne (f : Faults) (db : List Player) (p : Player)
    (limit : ℕ) (thr : ℝ) :
    ∀ x ∈ find_nlp_similarities f db p limit thr, x.1.id ≠ p.id := by
  intro x hx
  unfold find_nlp_similarities at hx
  split at hx
  · exact fallback_id_ne f db p limit x hx
  · have hx' : x ∈ nlpKept db p thr :=
      (List.mem_mergeSort).mp (List.take_subset _ _ hx)
    exact nlpPool_id_ne db p x.1 (mem_filterMap_score.mp hx').1

/-- `insertNlp` introduces no player beyond the accumulator's and the
inserted one. -/
theorem insertNlp_fst_mem : ∀ (acc : List (Player × ℝ × ℝ)) (q : Player) (s : ℝ)
    (e : Player × ℝ × ℝ), e ∈ insertNlp acc q s →
    e.1 ∈ acc.map Prod.fst ∨ e.1 = q := by
  intro acc
  induction acc with
  | nil =>
    intro q s e he
    simp only [insertNlp, List.mem_singleton] at he
    subst he
    exact Or.inr rfl
  | cons a t ih =>
    intro q s e he
    simp only [insertNlp] at he
    split at he
    · rcases List.mem_cons.mp he with h | h
      · subst h
        exact Or.inl (by simp)
      · have h' : e.1 ∈ t.map Prod.fst := List.mem_map_of_mem Prod.fst h
        exact Or.inl (by rw [List.map_cons]; exact List.mem_cons_of_mem _ h')
    · rcases List.mem_cons.mp he with h | h
      · subst h
        exact Or.inl (by simp)
      · rcases ih q s e h with h' | h'
        · exact Or.inl (by rw [List.map_cons]; exact List.mem_cons_of_mem _ h')
        · exact Or.inr h'

/-- Folding the NLP list into the dict introduces no player beyond the
initial accumulator's and the NLP list's. -/
theorem foldl_insertNlp_fst_mem :
    ∀ (nl : List (Player × ℝ)) (acc : List (Player × ℝ × ℝ)) (e : Player × ℝ × ℝ),
    e ∈ nl.foldl (fun acc x => insertNlp acc x.1 x.2) acc →
    e.1 ∈ acc.map Prod.fst ∨ e.1 ∈ nl.map Prod.fst := by
  intro nl
  induction nl with
  | nil =>
    intro acc e he
    exact Or.inl (List.mem_map_of_mem Prod.fst he)
  | cons y t ih =>
    intro acc e he
    simp only [List.foldl_cons] at he
    rcases ih (insertNlp acc y.1 y.2) e he with h | h
    · simp only [List.mem_map] at h
      obtain ⟨e', he', heq⟩ := h
      rcases insertNlp_fst_mem acc y.1 y.2 e' he' with h' | h'
      · exact Or.inl (heq ▸ h')
      · exact Or.inr (by simp only [List.map_cons, List.mem_cons]; exact Or.inl (heq ▸ h'))
    · exact Or.inr (by simp only [List.map_cons, List.mem_cons]; exact Or.inr h)

/-- Members of the hybrid strategy result differ from the target id. -/
theorem find_hybrid_id_ne (f : Faults) (db : List Player) (p : Player)
    (limit : ℕ) (thr : ℝ) :
    ∀ x ∈ find_hybrid_similarities f db p limit thr, x.1.id ≠ p.id := by
  intro x hx
  unfold find_hybrid_similarities at hx
  split at hx
  · exact fallback_id_ne f db p limit x hx
  · have hx' := (List.mem_mergeSort).mp (List.take_subset _ _ hx)
    simp only [hybrid_body, List.mem_map] at hx'
    obtain ⟨e, he, rfl⟩ := hx'
    rcases foldl_insertNlp_fst_mem _ _ e he with h | h
    · simp only [List.map_map, List.mem_map, Function.comp] at h
      obtain ⟨y, hy, heq⟩ := h
      have := find_statistical_id_ne f db p (limit * 2) thr y hy
      simpa [heq] using this
    · simp only [List.mem_map] at h
      obtain ⟨y, hy, heq⟩ := h
      have := find_nlp_id_ne f db p (limit * 2) thr y hy
      simpa [heq] using this

/-- Claim C7: for every strategy in `{statistical, nlp, hybrid}`, and
also on the fallback path, the result of `find_similar_players` never
contains a record with the target's own id — under every fault
pattern. -/
theorem C7_excludes_target :
    (∀ (f : Faults) (db : List Player) (p : Player) (limit : ℕ) (thr : ℝ)
      (method : String) (l : List (Player × ℝ)),
      method ∈ (["statistical", "nlp", "hybrid"] : List String) →
      find_similar_players f db p limit thr method = .ok l →
      ∀ x ∈ l, x.1.id ≠ p.id)
    ∧ (∀ (f : Faults) (db : List Player) (p : Player) (limit : ℕ),
      ∀ x ∈ fallback_similarity_search f db p limit, x.1.id ≠ p.id) := by
  constructor
  · intro f db p limit thr method l hm hok
    simp only [List.mem_cons, List.mem_singleton] at hm
    rcases hm with h | h | h | h
    · subst h
      have heq : find_similar_players f db p limit thr "statistical"
          = .ok (find_statistical_similarities f db p limit thr) := rfl
      rw [heq] at hok
      cases hok
      exact find_statistical_id_ne f db p limit thr
    · subst h
      have : find_similar_players f db p limit thr "nlp"
          = .ok (find_nlp_similarities f db p limit thr) := rfl
      rw [this] at hok
      cases hok
      exact find_nlp_id_ne f db p limit thr
    · subst h
      have : find_similar_players f db p limit thr "hybrid"
          = .ok (find_hybrid_similarities f db p limit thr) := rfl
      rw [this] at hok
      cases hok
      exact find_hybrid_id_ne f db p limit thr
    · cases h
  · exact fallback_id_ne

theorem C7_excludes_target_witness :
    ∀ x ∈ find_nlp_similarities noFaults [pC1, pC2] pT 5 (7/10), x.1.id ≠ pT.id :=
  C7_excludes_target.1 noFaults [pC1, pC2] pT 5 (7/10) "nlp"
    (find_nlp_similarities noFaults [pC1, pC2] pT 5 (7/10)) (by decide) rfl

/-! ### Claim C2 -/

theorem fieldLeB_trans (field : String) :
    ∀ a b c, fieldLeB field a b → fieldLeB field b c → fieldLeB field a c := by
  unfold fieldLeB
  split
  all_goals first
    | exact leBy_trans _
    | (intro a b c _ _; rfl)

theorem fieldLeB_total (field : String) :
    ∀ a b, fieldLeB field a b || fieldLeB field b a := by
  unfold fieldLeB
  split
  all_goals first
    | exact leBy_total _
    | (intro a b; rfl)

theorem revComp_trans {β : Type*} (rev : Bool) (le : β → β → Bool)
    (h : ∀ a b c, le a b → le b c → le a c) :
    ∀ a b c, revComp rev le a b → revComp rev le b c → revComp rev le a c := by
  cases rev
  · simpa [revComp] using h
  · intro a b c h1 h2
    simp only [revComp, if_pos] at *
    exact h c b a h2 h1

theorem revComp_total {β : Type*} (rev : Bool) (le : β → β → Bool)
    (h : ∀ a b, le a b || le b a) :
    ∀ a b, revComp rev le a b || revComp rev le b a := by
  cases rev
  · simpa [revComp] using h
  · intro a b
    simp only [revComp, if_pos]
    have := h b a
    simpa [Bool.or_comm] using this

/-- Counterexample to claim C2: sorting `[pB, pA]` (two records tied on
`goals`, ids `2` then `1`) by the stored key `goals` returns them in
queryset order `[pB, pA]` — the tie is *not* broken by record id
ascending, which would have produced `[pA, pB]`. -/
theorem C2_counterexample :
    apply_sorting [pB, pA] "goals" false = .ok [pB, pA]
    ∧ pA.goals = pB.goals ∧ pA.id < pB.id
    ∧ ¬ List.Pairwise
        (fun a b : Player => a.goals < b.goals ∨ (a.goals = b.goals ∧ a.id ≤ b.id))
        [pB, pA] := by
  refine ⟨?_, by decide, by decide, by decide⟩
  have h1 : get_sort_field "goals" = some "goals" := rfl
  simp only [apply_sorting, h1]
  rw [if_neg (by decide : ¬ ("goals" ∈ calculatedFields))]
  have hle : fieldLeB "goals" pB pA = true := by decide
  have hs : List.Pairwise (fun a b => fieldLeB "goals" a b = true) [pB, pA] :=
    List.pairwise_pair.mpr hle
  simp only [order_by, revComp, Bool.false_eq_true, if_false]
  rw [List.mergeSort_of_sorted hs]

/-- Claim C2 (amended): for every record collection, valid sort key
naming a stored attribute, and direction flag, `apply_sorting` sorts
records by that attribute value in the requested direction, and every
tie in the attribute value is broken by the records' original queryset
order (the underlying stable sort), not by record id. -/
theorem C2_amended (qs : List Player) (key field : String) (rev : Bool)
    (hf : get_sort_field key = some field) (hcalc : field ∉ calculatedFields)
    (hnd : qs.Nodup) :
    ∃ l : List Player,
      apply_sorting qs key rev = .ok l ∧ l.Perm qs ∧
      l.Pairwise (fun a b => revComp rev (fieldLeB field) a b = true ∧
        (revComp rev (fieldLeB field) b a = true → idxOf a qs < idxOf b qs)) := by
  refine ⟨order_by qs field rev, ?_, List.mergeSort_perm qs _, ?_⟩
  · simp only [apply_sorting, hf]
    rw [if_neg hcalc]
  · exact mergeSort_stable_sorted _ (revComp_trans rev _ (fieldLeB_trans field))
      (revComp_total rev _ (fieldLeB_total field)) qs hnd

theorem C2_amended_witness :
    ∃ l : List Player,
      apply_sorting [pA, pB] "goals" true = .ok l ∧ l.Perm [pA, pB] ∧
      l.Pairwise (fun a b => revComp true (fieldLeB "goals") a b = true ∧
        (revComp true (fieldLeB "goals") b a = true →
          idxOf a [pA, pB] < idxOf b [pA, pB])) :=
  C2_amended [pA, pB] "goals" "goals" true rfl (by decide) (by decide)

/-! ### Claim C1 -/

theorem dotList_self_nonneg (v : List ℚ) : 0 ≤ dotList v v := by
  induction v with
  | nil => simp [dotList]
  | cons a t ih =>
    simp only [dotList, List.zipWith_cons_cons, List.sum_cons] at *
    nlinarith [mul_self_nonneg a]

theorem dotList_self_pos (v : List ℚ)
    (h : v.all (fun x => decide (x = 0)) = false) : 0 < dotList v v := by
  induction v with
  | nil => simp at h
  | cons a t ih =>
    simp only [List.all_cons, Bool.and_eq_false_iff] at h
    have hnn := dotList_self_nonneg t
    simp only [dotList, List.zipWith_cons_cons, List.sum_cons] at *
    rcases h with h | h
    · have ha : a ≠ 0 := by simpa using h
      nlinarith [mul_self_pos.mpr ha]
    · nlinarith [ih h, mul_self_nonneg a]

/-- Cosine similarity of a non-zero vector with itself is exactly `1`. -/
theorem cosine_self (v : List ℚ)
    (h : v.all (fun x => decide (x = 0)) = false) : cosine_similarity v v = 1 := by
  have hd : 0 < dotList v v := dotList_self_pos v h
  have hdR : (0:ℝ) < ((dotList v v : ℚ) : ℝ) := by exact_mod_cast hd
  have hs : Real.sqrt ((dotList v v : ℚ) : ℝ) ≠ 0 :=
    ne_of_gt (Real.sqrt_pos.mpr hdR)
  unfold cosine_similarity
  rw [if_neg (by simp [h]), if_neg (by simp [hs]),
    Real.mul_self_sqrt (le_of_lt hdR)]
  exact div_self (ne_of_gt hdR)

theorem metaLe_pC2_pC1 : metaLe pC2 pC1 = true := by
  simp only [metaLe, leBy, decide_eq_true_eq, metaKey, Prod.Lex.le_iff,
    OrderDual.toDual_lt_toDual, OrderDual.toDual_inj]
  left
  decide

theorem statPool_example : statPool [pC2, pC1] pT = [pC2, pC1] := by
  have hfilter : ([pC2, pC1].filter (fun o =>
      decide (o.position = pT.position ∧ o.competition = pT.competition ∧
        o.id ≠ pT.id))) = [pC2, pC1] := by decide
  simp only [statPool, defaultOrder, hfilter]
  exact List.mergeSort_of_sorted (List.pairwise_pair.mpr metaLe_pC2_pC1)

theorem vec_pT :
    get_statistics_vector pT = [0, 0, 0, 0, 0, 0, 0, 0, 0, (1/2 : ℚ)] := by
  norm_num [get_statistics_vector, goals_per_90, assists_per_90, pT, P0, min_def]

theorem vec_pC1 :
    get_statistics_vector pC1 = [0, 0, 0, 0, 0, 0, 0, 0, 0, (1/2 : ℚ)] := by
  norm_num [get_statistics_vector, goals_per_90, assists_per_90, pC1, P0, min_def]

theorem vec_pC2 :
    get_statistics_vector pC2 = [0, 0, 0, 0, 0, 0, 0, 0, 0, (1/2 : ℚ)] := by
  norm_num [get_statistics_vector, goals_per_90, assists_per_90, pC2, P0, min_def]

theorem vec_pT_all_zero_false :
    (([0, 0, 0, 0, 0, 0, 0, 0, 0, (1/2 : ℚ)]).all fun x => decide (x = 0)) = false := by
  norm_num

theorem statScore_pT_pC1 : statScore pT pC1 = 1 := by
  rw [statScore, vec_pC1, vec_pT.symm]
  rw [vec_pT]
  exact cosine_self _ vec_pT_all_zero_false

theorem statScore_pT_pC2 : statScore pT pC2 = 1 := by
  rw [statScore, vec_pC2, vec_pT.symm]
  rw [vec_pT]
  exact cosine_self _ vec_pT_all_zero_false

theorem statKept_example :
    statKept [pC2, pC1] pT (7/10) = [(pC2, (1:ℝ)), (pC1, 1)] := by
  have h2 : keptFn (statScore pT) (7/10) pC2 = some (pC2, (1:ℝ)) := by
    show (if (7/10 : ℝ) ≤ statScore pT pC2
      then some (pC2, statScore pT pC2) else none) = some (pC2, (1:ℝ))
    rw [statScore_pT_pC2, if_pos (by norm_num : (7/10 : ℝ) ≤ 1)]
  have h1 : keptFn (statScore pT) (7/10) pC1 = some (pC1, (1:ℝ)) := by
    show (if (7/10 : ℝ) ≤ statScore pT pC1
      then some (pC1, statScore pT pC1) else none) = some (pC1, (1:ℝ))
    rw [statScore_pT_pC1, if_pos (by norm_num : (7/10 : ℝ) ≤ 1)]
  rw [statKept, statPool_example, List.filterMap_cons_some h2,
    List.filterMap_cons_some h1, List.filterMap_nil]

/-- Counterexample to claim C1: a target and two candidates with equal
statistics vectors, hence equal (unit) cosine scores; the statistical
strategy returns them in candidate-pool order (which follows the store's
default ordering — goals descending), ids `[2, 1]`, not id-ascending
`[1, 2]`. -/
theorem C1_counterexample :
    find_statistical_body [pC2, pC1] pT 10 (7/10) = [(pC2, (1:ℝ)), (pC1, 1)]
    ∧ pC1.id < pC2.id
    ∧ ¬ List.Pairwise
        (fun a b : Player × ℝ => b.2 < a.2 ∨ (a.2 = b.2 ∧ a.1.id ≤ b.1.id))
        [(pC2, (1:ℝ)), (pC1, 1)] := by
  refine ⟨?_, by decide, ?_⟩
  · have hsorted : List.Pairwise (fun a b => scoreDesc a b = true)
        [(pC2, (1:ℝ)), (pC1, 1)] := by
      refine List.pairwise_pair.mpr ?_
      simp [scoreDesc, leBy]
    rw [find_statistical_body, statKept_example,
      List.mergeSort_of_sorted hsorted]
    exact List.take_of_length_le (by simp)
  · intro h
    rcases List.pairwise_cons.mp h with ⟨h1, -⟩
    have h2 := h1 _ (List.mem_singleton.mpr rfl)
    rcases h2 with h3 | ⟨-, h4⟩
    · exact absurd h3 (lt_irrefl 1)
    · exact absurd h4 (by decide)

theorem map_fst_filterMap_score {score : Player → ℝ} {pool : List Player} {thr : ℝ} :
    (pool.filterMap (keptFn score thr)).map Prod.fst
      = pool.filter (fun o => decide (thr ≤ score o)) := by
  induction pool with
  | nil => rfl
  | cons a t ih =>
    simp only [List.filterMap_cons, List.filter_cons, keptFn]
    by_cases h : thr ≤ score a
    · simp [h, ih]
    · simp [h, ih]

theorem statKept_nodup (db : List Player) (p : Player) (thr : ℝ)
    (hnd : (db.map Player.id).Nodup) : (statKept db p thr).Nodup := by
  have hpool_ids : ((statPool db p).map Player.id).Nodup := by
    have hfil : ((db.filter (fun o =>
        decide (o.position = p.position ∧ o.competition = p.competition ∧
          o.id ≠ p.id))).map Player.id).Nodup :=
      List.Nodup.sublist ((List.filter_sublist db).map Player.id) hnd
    have hperm : ((statPool db p).map Player.id).Perm ((db.filter (fun o =>
        decide (o.position = p.position ∧ o.competition = p.competition ∧
          o.id ≠ p.id))).map Player.id) :=
      (List.mergeSort_perm _ _).map Player.id
    exact hperm.nodup_iff.mpr hfil
  have hpool : (statPool db p).Nodup := List.Nodup.of_map _ hpool_ids
  have hmap : ((statKept db p thr).map Prod.fst).Nodup := by
    rw [statKept, map_fst_filterMap_score]
    exact List.Nodup.sublist (List.filter_sublist _) hpool
  exact List.Nodup.of_map _ hmap

/-- Claim C1 (amended): the statistical strategy sorts the kept
candidates descending by cosine similarity score, breaks every score tie
by the candidates' position in the kept list (which follows the
candidate pool's store ordering — goals/assists descending, then name),
not by candidate id, and truncates to `limit`. -/
theorem C1_amended (db : List Player) (p : Player) (limit : ℕ) (thr : ℝ)
    (hnd : (db.map Player.id).Nodup) :
    ∃ l : List (Player × ℝ),
      l.Perm (statKept db p thr) ∧
      l.Pairwise (fun a b => b.2 ≤ a.2 ∧
        (a.2 = b.2 → idxOf a (statKept db p thr) < idxOf b (statKept db p thr))) ∧
      find_statistical_body db p limit thr = l.take limit := by
  refine ⟨(statKept db p thr).mergeSort scoreDesc, List.mergeSort_perm _ _, ?_, rfl⟩
  have hst := mergeSort_stable_sorted scoreDesc (leBy_trans _) (leBy_total _) _
    (statKept_nodup db p thr hnd)
  refine hst.imp ?_
  rintro a b ⟨h1, h2⟩
  constructor
  · simpa [scoreDesc, leBy] using h1
  · intro he
    apply h2
    simp [scoreDesc, leBy, he]

theorem C1_amended_witness :
    ∃ l : List (Player × ℝ),
      l.Perm (statKept [pC2, pC1] pT (7/10)) ∧
      l.Pairwise (fun a b => b.2 ≤ a.2 ∧
        (a.2 = b.2 →
          idxOf a (statKept [pC2, pC1] pT (7/10))
            < idxOf b (statKept [pC2, pC1] pT (7/10)))) ∧
      find_statistical_body [pC2, pC1] pT 10 (7/10) = l.take 10 :=
  C1_amended [pC2, pC1] pT 10 (7/10) (by decide)

/-! ### Claim C9 -/

/-- The data-model ranges assumed by claim C9: percentage statistics in
`[0, 100]`, counting statistics, `minutes_per_90` and `age`
non-negative. -/
def ValidStats (p : Player) : Prop :=
  0 ≤ p.shots_on_target_percentage ∧ p.shots_on_target_percentage ≤ 100 ∧
  0 ≤ p.pass_completion_percentage ∧ p.pass_completion_percentage ≤ 100 ∧
  0 ≤ p.dribble_success_percentage ∧ p.dribble_success_percentage ≤ 100 ∧
  0 ≤ p.goals ∧ 0 ≤ p.assists ∧ 0 ≤ p.tackles ∧ 0 ≤ p.interceptions ∧
  0 ≤ p.progressive_passes ∧ 0 ≤ p.progressive_carries ∧
  0 ≤ p.minutes_per_90 ∧ 0 ≤ p.age

theorem vector_entry_bounds (p : Player) (hp : ValidStats p) :
    ∀ x ∈ get_statistics_vector p, 0 ≤ x ∧ x ≤ 1 := by
  obtain ⟨hsot0, hsot100, hpc0, hpc100, hds0, hds100, hg, ha, ht, hi, hpp, hpcr,
    hm90, hage⟩ := hp
  intro x hx
  simp only [get_statistics_vector, List.mem_cons, List.not_mem_nil, or_false] at hx
  rcases hx with rfl | rfl | rfl | rfl | rfl | rfl | rfl | rfl | rfl | rfl
  · split_ifs with h
    · exact ⟨le_min (by rw [div_one]; exact le_of_lt h) zero_le_one, min_le_right _ _⟩
    · norm_num
  · split_ifs with h
    · exact ⟨le_min (le_of_lt (div_pos h (by norm_num))) zero_le_one, min_le_right _ _⟩
    · norm_num
  · split_ifs with h
    · exact ⟨div_nonneg (le_of_lt h) (by norm_num),
        by rw [div_le_one (by norm_num : (0:ℚ) < 100)]; exact hsot100⟩
    · norm_num
  · split_ifs with h
    · exact ⟨div_nonneg (le_of_lt h) (by norm_num),
        by rw [div_le_one (by norm_num : (0:ℚ) < 100)]; exact hpc100⟩
    · norm_num
  · split_ifs with h
    · exact ⟨div_nonneg (le_of_lt h) (by norm_num),
        by rw [div_le_one (by norm_num : (0:ℚ) < 100)]; exact hds100⟩
    · norm_num
  · split_ifs with h
    · refine ⟨le_min (div_nonneg (div_nonneg ?_ (le_of_lt h)) (by norm_num))
        zero_le_one, min_le_right _ _⟩
      exact_mod_cast ht
    · norm_num
  · split_ifs with h
    · refine ⟨le_min (div_nonneg (div_nonneg ?_ (le_of_lt h)) (by norm_num))
        zero_le_one, min_le_right _ _⟩
      exact_mod_cast hi
    · norm_num
  · split_ifs with h
    · refine ⟨le_min (div_nonneg (div_nonneg ?_ (le_of_lt h)) (by norm_num))
        zero_le_one, min_le_right _ _⟩
      exact_mod_cast hpp
    · norm_num
  · split_ifs with h
    · refine ⟨le_min (div_nonneg (div_nonneg ?_ (le_of_lt h)) (by norm_num))
        zero_le_one, min_le_right _ _⟩
      exact_mod_cast hpcr
    · norm_num
  · exact ⟨le_min (div_nonneg hage (by norm_num)) zero_le_one, min_le_right _ _⟩

theorem dotList_cons (a b : ℚ) (t u : List ℚ) :
    dotList (a :: t) (b :: u) = a * b + dotList t u := by
  simp [dotList, List.zipWith_cons_cons]

/-- Cauchy–Schwarz for the list dot product. -/
theorem dotList_sq_le (v w : List ℚ) :
    (dotList v w)^2 ≤ dotList v v * dotList w w := by
  induction v generalizing w with
  | nil => simp [dotList]
  | cons a t ih =>
    cases w with
    | nil =>
      simp only [dotList, List.zipWith_nil_right, List.sum_nil]
      nlinarith [dotList_self_nonneg (a :: t)]
    | cons b u =>
      have h := ih u
      have hP := dotList_self_nonneg t
      have hQ := dotList_self_nonneg u
      rw [dotList_cons, dotList_cons, dotList_cons]
      rcases eq_or_lt_of_le hQ with hq0 | hqpos
      · have hS2 : (dotList t u)^2 ≤ 0 := by
          calc (dotList t u)^2 ≤ dotList t t * dotList u u := h
          _ = 0 := by rw [← hq0, mul_zero]
        have hS : dotList t u = 0 := by
          have h0 : (dotList t u)^2 = 0 := le_antisymm hS2 (sq_nonneg _)
          exact sq_eq_zero_iff.mp h0
        rw [hS, ← hq0]
        nlinarith [mul_nonneg hP (mul_self_nonneg b)]
      · nlinarith [sq_nonneg (a * dotList u u - b * dotList t u),
          mul_nonneg (le_of_lt hqpos) (sub_nonneg.mpr h),
          mul_nonneg (mul_self_nonneg b) (sub_nonneg.mpr h)]

theorem dotList_nonneg_of (v w : List ℚ) (hv : ∀ x ∈ v, 0 ≤ x)
    (hw : ∀ x ∈ w, 0 ≤ x) : 0 ≤ dotList v w := by
  induction v generalizing w with
  | nil => simp [dotList]
  | cons a t ih =>
    cases w with
    | nil => simp [dotList]
    | cons b u =>
      rw [dotList_cons]
      have h1 : 0 ≤ a * b := mul_nonneg (hv a (by simp)) (hw b (by simp))
      have h2 : 0 ≤ dotList t u :=
        ih u (fun x hx => hv x (List.mem_cons_of_mem a hx))
          (fun x hx => hw x (List.mem_cons_of_mem b hx))
      linarith

/-- Cosine similarity of entrywise-non-negative vectors lies in `[0, 1]`. -/
theorem cosine_bounds (v w : List ℚ) (hv : ∀ x ∈ v, 0 ≤ x) (hw : ∀ x ∈ w, 0 ≤ x) :
    0 ≤ cosine_similarity v w ∧ cosine_similarity v w ≤ 1 := by
  unfold cosine_similarity
  split_ifs with h1 h2
  · norm_num
  · norm_num
  · push_neg at h2
    have hvv0 : (0:ℝ) ≤ ((dotList v v : ℚ) : ℝ) := by
      exact_mod_cast dotList_self_nonneg v
    have hww0 : (0:ℝ) ≤ ((dotList w w : ℚ) : ℝ) := by
      exact_mod_cast dotList_self_nonneg w
    have hs1 : 0 < Real.sqrt ((dotList v v : ℚ) : ℝ) :=
      lt_of_le_of_ne (Real.sqrt_nonneg _) (Ne.symm h2.1)
    have hs2 : 0 < Real.sqrt ((dotList w w : ℚ) : ℝ) :=
      lt_of_le_of_ne (Real.sqrt_nonneg _) (Ne.symm h2.2)
    have hdot : (0:ℝ) ≤ ((dotList v w : ℚ) : ℝ) := by
      exact_mod_cast dotList_nonneg_of v w hv hw
    constructor
    · exact div_nonneg hdot (le_of_lt (mul_pos hs1 hs2))
    · rw [div_le_one (mul_pos hs1 hs2)]
      have hcs : ((dotList v w : ℚ) : ℝ)^2
          ≤ ((dotList v v : ℚ) : ℝ) * ((dotList w w : ℚ) : ℝ) := by
        exact_mod_cast dotList_sq_le v w
      calc ((dotList v w : ℚ) : ℝ)
          ≤ Real.sqrt (((dotList v v : ℚ) : ℝ) * ((dotList w w : ℚ) : ℝ)) :=
            Real.le_sqrt_of_sq_le hcs
        _ = Real.sqrt ((dotList v v : ℚ) : ℝ) * Real.sqrt ((dotList w w : ℚ) : ℝ) :=
            Real.sqrt_mul hvv0 _

/-- Claim C9: for every record whose percentage statistics lie in
`[0, 100]` and whose counting statistics, `minutes_per_90` and age are
non-negative, `get_statistics_vector` returns a list of exactly 10
numbers, each in `[0, 1]`; consequently the cosine similarity score of
the statistical strategy lies in `[0, 1]`. -/
theorem C9_vector_bounds (p q : Player) (hp : ValidStats p) (hq : ValidStats q) :
    (get_statistics_vector p).length = 10
    ∧ (∀ x ∈ get_statistics_vector p, 0 ≤ x ∧ x ≤ 1)
    ∧ 0 ≤ statScore p q ∧ statScore p q ≤ 1 := by
  have hbp := vector_entry_bounds p hp
  have hbq := vector_entry_bounds q hq
  have hcb := cosine_bounds _ _ (fun x hx => (hbp x hx).1) (fun x hx => (hbq x hx).1)
  exact ⟨rfl, hbp, hcb.1, hcb.2⟩

theorem C9_vector_bounds_witness :
    (get_statistics_vector pT).length = 10
    ∧ (∀ x ∈ get_statistics_vector pT, 0 ≤ x ∧ x ≤ 1)
    ∧ 0 ≤ statScore pT pC1 ∧ statScore pT pC1 ≤ 1 :=
  C9_vector_bounds pT pC1 (by norm_num [ValidStats, pT, P0])
    (by norm_num [ValidStats, pC1, P0])

/-! ### Claim C10 -/

/-- A phrase whose lower-cased form starts with a non-whitespace
character. -/
def headNonWS (s : List Char) : Bool :=
  match s.map Char.toLower with
  | [] => false
  | c :: _ => !c.isWhitespace

theorem mem_ite_singleton {c : Prop} [Decidable c] {x s : List Char}
    (h : x ∈ (if c then ([s] : List (List Char)) else [])) : x = s := by
  split at h
  · simpa using h
  · cases h

theorem mem_age_block {p : Player} {x : List Char}
    (h : x ∈ (if p.age < 23 then ["young talent".toList]
      else if 30 < p.age then ["experienced player".toList] else [])) :
    x = "young talent".toList ∨ x = "experienced player".toList := by
  split at h
  · exact Or.inl (by simpa using h)
  · split at h
    · exact Or.inr (by simpa using h)
    · cases h

/-- Every phrase the rule cascade can emit starts with a (lower-cased)
non-whitespace character. -/
theorem parts_headNonWS (p : Player) :
    ∀ s ∈ description_parts p, headNonWS s = true := by
  intro s hs
  unfold description_parts at hs
  simp only [List.mem_append] at hs
  rcases hs with ((((((h | h) | h) | h) | h) | h) | h)
  · split at h
    · simp only [List.mem_append] at h
      rcases h with (h | h) | h
      · rw [List.mem_singleton] at h; subst h; decide
      · have he := mem_ite_singleton h; subst he; decide
      · have he := mem_ite_singleton h; subst he; decide
    · split at h
      · simp only [List.mem_append] at h
        rcases h with (h | h) | h
        · rw [List.mem_singleton] at h; subst h; decide
        · have he := mem_ite_singleton h; subst he; decide
        · have he := mem_ite_singleton h; subst he; decide
      · split at h
        · simp only [List.mem_append] at h
          rcases h with (h | h) | h
          · rw [List.mem_singleton] at h; subst h; decide
          · have he := mem_ite_singleton h; subst he; decide
          · have he := mem_ite_singleton h; subst he; decide
        · split at h
          · simp only [List.mem_append] at h
            rcases h with h | h
            · rw [List.mem_singleton] at h; subst h; decide
            · have he := mem_ite_singleton h; subst he; decide
          · cases h
  · have he := mem_ite_singleton h; subst he; decide
  · have he := mem_ite_singleton h; subst he; decide
  · have he := mem_ite_singleton h; subst he; decide
  · have he := mem_ite_singleton h; subst he; decide
  · have he := mem_ite_singleton h; subst he; decide
  · rcases mem_age_block h with he | he
    · subst he; decide
    · subst he; decide

theorem splitWS_cons_ne_nil {c : Char} {l : List Char}
    (h : c.isWhitespace = false) : splitWS (c :: l) ≠ [] := by
  intro hcon
  unfold splitWS at hcon
  rw [if_neg (by simp [h])] at hcon
  cases hcon

theorem lowerWords_headNonWS_ne_nil {s r : List Char} (h : headNonWS s = true) :
    lowerWords (s ++ r) ≠ [] := by
  cases s with
  | nil => simp [headNonWS] at h
  | cons c t =>
    simp only [headNonWS, List.map_cons, Bool.not_eq_true'] at h
    show splitWS (((c :: t) ++ r).map Char.toLower) ≠ []
    simp only [List.cons_append, List.map_cons]
    exact splitWS_cons_ne_nil h

/-- Token lists of generated descriptions are never empty. -/
theorem desc_tokens_ne_nil (p : Player) :
    lowerWords (generate_style_description p) ≠ [] := by
  unfold generate_style_description
  split_ifs with h
  · have hv := lowerWords_headNonWS_ne_nil (r := [])
      (by decide : headNonWS "versatile player".toList = true)
    rwa [List.append_nil] at hv
  · obtain ⟨s, rest, hparts⟩ : ∃ s rest, description_parts p = s :: rest := by
      cases hp : description_parts p with
      | nil => exact absurd hp h
      | cons s rest => exact ⟨s, rest, rfl⟩
    rw [hparts]
    have hhead : headNonWS s = true :=
      parts_headNonWS p s (by rw [hparts]; exact List.mem_cons_self s rest)
    cases rest with
    | nil =>
      have hv := lowerWords_headNonWS_ne_nil (r := []) hhead
      rw [List.append_nil] at hv
      have hone : joinSpace [s] = s := rfl
      rwa [hone]
    | cons y ys =>
      have hj : joinSpace (s :: y :: ys) = s ++ (' ' :: joinSpace (y :: ys)) := rfl
      rw [hj]
      exact lowerWords_headNonWS_ne_nil hhead

theorem desc_toFinset_ne (p : Player) :
    (lowerWords (generate_style_description p)).toFinset ≠ ∅ := by
  intro h0
  exact desc_tokens_ne_nil p ((List.toFinset_eq_empty_iff _).mp h0)

/-- Claim C10: `generate_style_description` always returns a non-empty
string (the fixed `"versatile player"` when no rule fires), so in the
NLP strategy both token sets are non-empty and the empty-token-set
branch of `text_similarity` (returning `0`) is unreachable for
code-generated descriptions. -/
theorem C10_description_nonempty (p : Player) :
    generate_style_description p ≠ []
    ∧ (description_parts p = [] →
        generate_style_description p = "versatile player".toList)
    ∧ (lowerWords (generate_style_description p)).toFinset ≠ ∅
    ∧ ∀ q : Player,
        text_similarity (generate_style_description p) (generate_style_description q)
          = (((lowerWords (generate_style_description p)).toFinset
              ∩ (lowerWords (generate_style_description q)).toFinset).card : ℚ)
            / (((lowerWords (generate_style_description p)).toFinset
              ∪ (lowerWords (generate_style_description q)).toFinset).card : ℚ) := by
  refine ⟨?_, ?_, desc_toFinset_ne p, ?_⟩
  · intro h0
    apply desc_tokens_ne_nil p
    rw [h0]
    simp [lowerWords, splitWS]
  · intro h0
    unfold generate_style_description
    rw [if_pos h0]
  · intro q
    unfold text_similarity
    rw [if_neg (by push_neg; exact ⟨desc_toFinset_ne p, desc_toFinset_ne q⟩)]

theorem C10_description_nonempty_witness :
    generate_style_description pVers ≠ []
    ∧ generate_style_description pVers = "versatile player".toList :=
  ⟨(C10_description_nonempty pVers).1,
    (C10_description_nonempty pVers).2.1 (by decide)⟩

/-! ### Claim C4 -/

/-- Score attached to id `i` in a strategy result, `0.0` if absent
(the claim's "score 0.0 substituted for a missing dimension"). -/
noncomputable def lookupScore (l : List (Player × ℝ)) (i : ℕ) : ℝ :=
  ((l.find? (fun x => decide (x.1.id = i))).map (fun x => x.2)).getD 0

/-- Union of the candidates of the two sub-strategy results by id,
statistical list first — the claim-side description of the hybrid union. -/
def unionPlayers (stat nlp : List (Player × ℝ)) : List Player :=
  stat.map Prod.fst ++
    (nlp.map Prod.fst).filter (fun q => !(stat.any (fun x => decide (x.1.id = q.id))))

/-- The fused union per the claim: every candidate of either sub-strategy,
fused score `0.6·statistical + 0.4·nlp`, no threshold filter. -/
noncomputable def hybridSpecFused (stat nlp : List (Player × ℝ)) : List (Player × ℝ) :=
  (unionPlayers stat nlp).map (fun q =>
    (q, lookupScore stat q.id * (6/10) + lookupScore nlp q.id * (4/10)))

theorem insertNlp_cons_found (e : Player × ℝ × ℝ) (rest : List (Player × ℝ × ℝ))
    (q : Player) (s : ℝ) (h : e.1.id = q.id) :
    insertNlp (e :: rest) q s = (e.1, e.2.1, s) :: rest := by
  show (if e.1.id = q.id then (e.1, e.2.1, s) :: rest else e :: insertNlp rest q s)
    = (e.1, e.2.1, s) :: rest
  rw [if_pos h]

theorem insertNlp_not_found (acc : List (Player × ℝ × ℝ)) (q : Player) (s : ℝ)
    (h : ∀ e ∈ acc, e.1.id ≠ q.id) :
    insertNlp acc q s = acc ++ [(q, 0, s)] := by
  induction acc with
  | nil => rfl
  | cons e t ih =>
    show (if e.1.id = q.id then (e.1, e.2.1, s) :: t else e :: insertNlp t q s)
      = (e :: t) ++ [(q, 0, s)]
    rw [if_neg (h e (List.mem_cons_self e t)),
      ih (fun x hx => h x (List.mem_cons_of_mem e hx)), List.cons_append]

theorem insertNlp_append_no_match (A B : List (Player × ℝ × ℝ)) (q : Player) (s : ℝ)
    (h : ∀ e ∈ A, e.1.id ≠ q.id) :
    insertNlp (A ++ B) q s = A ++ insertNlp B q s := by
  induction A with
  | nil => rfl
  | cons e t ih =>
    rw [List.cons_append]
    show (if e.1.id = q.id then (e.1, e.2.1, s) :: (t ++ B)
        else e :: insertNlp (t ++ B) q s)
      = (e :: t) ++ insertNlp B q s
    rw [if_neg (h e (List.mem_cons_self e t)),
      ih (fun x hx => h x (List.mem_cons_of_mem e hx)), List.cons_append]

theorem lookupScore_append_ne (ns : List (Player × ℝ)) (y : Player × ℝ) (i : ℕ)
    (h : y.1.id ≠ i) : lookupScore (ns ++ [y]) i = lookupScore ns i := by
  unfold lookupScore
  rw [List.find?_append]
  have h1 : List.find? (fun x => decide (x.1.id = i)) [y] = none := by
    simp [List.find?, h]
  rw [h1, Option.or_none]

theorem lookupScore_append_eq (ns : List (Player × ℝ)) (y : Player × ℝ)
    (h : ∀ z ∈ ns, z.1.id ≠ y.1.id) : lookupScore (ns ++ [y]) y.1.id = y.2 := by
  unfold lookupScore
  rw [List.find?_append]
  have h1 : List.find? (fun x => decide (x.1.id = y.1.id)) ns = none := by
    rw [List.find?_eq_none]
    intro x hx
    simp [h x hx]
  rw [h1, Option.none_or]
  simp [List.find?]

theorem lookupScore_eq_zero (l : List (Player × ℝ)) (i : ℕ)
    (h : ∀ x ∈ l, x.1.id ≠ i) : lookupScore l i = 0 := by
  unfold lookupScore
  rw [show List.find? (fun x => decide (x.1.id = i)) l = none from
    List.find?_eq_none.mpr (fun x hx => by simp [h x hx])]
  rfl

theorem lookupScore_self (l : List (Player × ℝ))
    (hnd : (l.map (fun x => x.1.id)).Nodup) {x : Player × ℝ} (hx : x ∈ l) :
    lookupScore l x.1.id = x.2 := by
  induction l with
  | nil => cases hx
  | cons e t ih =>
    simp only [List.map_cons, List.nodup_cons] at hnd
    by_cases hid : e.1.id = x.1.id
    · have hxe : x = e := by
        rcases List.mem_cons.mp hx with rfl | hxt
        · rfl
        · exfalso
          exact hnd.1 (hid ▸ List.mem_map_of_mem _ hxt)
      subst hxe
      unfold lookupScore
      rw [List.find?_cons_of_pos _ (by simp)]
      rfl
    · have hxt : x ∈ t := by
        rcases List.mem_cons.mp hx with rfl | hxt
        · exact absurd rfl hid
        · exact hxt
      have hrec := ih hnd.2 hxt
      unfold lookupScore at hrec ⊢
      rw [List.find?_cons_of_neg _ (by simp [hid])]
      exact hrec

/-- The `all_similar` dict after the statistical pass and the prefix `ns`
of the NLP pass: statistical entries (with their NLP score looked up in
`ns`), then the NLP-only entries in insertion order. -/
noncomputable def mergedSpec (stat ns : List (Player × ℝ)) : List (Player × ℝ × ℝ) :=
  stat.map (fun x => (x.1, x.2, lookupScore ns x.1.id)) ++
    (ns.filter (fun y => !(stat.any (fun x => decide (x.1.id = y.1.id))))).map
      (fun y => (y.1, 0, y.2))

theorem insert_step (stat ns : List (Player × ℝ)) (y : Player × ℝ)
    (hst : (stat.map (fun x => x.1.id)).Nodup)
    (hy : ∀ z ∈ ns, z.1.id ≠ y.1.id) :
    insertNlp (mergedSpec stat ns) y.1 y.2 = mergedSpec stat (ns ++ [y]) := by
  by_cases hmem : ∃ x ∈ stat, x.1.id = y.1.id
  · obtain ⟨x, hxmem, hid⟩ := hmem
    obtain ⟨S1, S2, rfl⟩ := List.append_of_mem hxmem
    rw [List.map_append, List.map_cons] at hst
    have hS1 : ∀ z ∈ S1, z.1.id ≠ x.1.id := by
      intro z hz heq
      exact (List.disjoint_of_nodup_append hst)
        (List.mem_map_of_mem _ hz) (heq ▸ List.mem_cons_self _ _)
    have hS2 : ∀ z ∈ S2, z.1.id ≠ x.1.id := by
      intro z hz heq
      exact (List.nodup_cons.mp (List.Nodup.of_append_right hst)).1
        (heq ▸ List.mem_map_of_mem _ hz)
    have hfilter_y : (!((S1 ++ x :: S2).any (fun z => decide (z.1.id = y.1.id)))) = false := by
      simp only [Bool.not_eq_false', List.any_eq_true]
      exact ⟨x, hxmem, by simp [hid]⟩
    -- left side
    unfold mergedSpec
    rw [List.map_append, List.map_cons, List.append_assoc, List.cons_append]
    rw [insertNlp_append_no_match _ _ _ _
      (by rintro e he; simp only [List.mem_map] at he
          obtain ⟨z, hz, rfl⟩ := he
          exact fun hc => hS1 z hz (hid ▸ hc))]
    rw [insertNlp_cons_found _ _ _ _ (by simpa using hid)]
    -- right side
    rw [List.map_append, List.map_cons, List.append_assoc, List.cons_append]
    congr 1
    · -- S1 part
      apply List.map_congr_left
      intro z hz
      rw [lookupScore_append_ne ns y z.1.id (fun hc => hS1 z hz (hid ▸ hc.symm ▸ rfl))]
    · congr 1
      · -- the matched entry
        have hx_id : x.1.id = y.1.id := hid
        have : lookupScore (ns ++ [y]) x.1.id = y.2 := by
          rw [hx_id]
          exact lookupScore_append_eq ns y hy
        rw [this]
      · congr 1
        · -- S2 part
          apply List.map_congr_left
          intro z hz
          rw [lookupScore_append_ne ns y z.1.id (fun hc => hS2 z hz (hid ▸ hc.symm ▸ rfl))]
        · -- NLP-only part: y is filtered out
          rw [List.filter_append]
          have : List.filter (fun z => !((S1 ++ x :: S2).any
              (fun x => decide (x.1.id = z.1.id)))) [y] = [] := by
            simp only [List.filter, hfilter_y]
          rw [this, List.append_nil]
  · push_neg at hmem
    unfold mergedSpec
    rw [insertNlp_append_no_match _ _ _ _
      (by rintro e he; simp only [List.mem_map] at he
          obtain ⟨z, hz, rfl⟩ := he
          exact hmem z hz)]
    rw [insertNlp_not_found _ _ _
      (by rintro e he; simp only [List.mem_map] at he
          obtain ⟨z, hz, rfl⟩ := he
          have hz' : z ∈ ns := List.mem_of_mem_filter hz
          exact hy z hz')]
    rw [List.filter_append]
    have hfy : List.filter (fun z => !(stat.any
        (fun x => decide (x.1.id = z.1.id)))) [y] = [y] := by
      have hb : (!(stat.any fun x => decide (x.1.id = y.1.id))) = true := by
        simp only [Bool.not_eq_true', List.any_eq_false]
        intro x hx
        simp [hmem x hx]
      simp [List.filter, hb]
    rw [hfy, List.map_append]
    congr 1
    apply List.map_congr_left
    intro z hz
    rw [lookupScore_append_ne ns y z.1.id (fun hc => hmem z hz hc.symm)]

theorem foldl_insertNlp_spec (stat : List (Player × ℝ))
    (hst : (stat.map (fun x => x.1.id)).Nodup) :
    ∀ (nl ns : List (Player × ℝ)),
    ((ns ++ nl).map (fun x => x.1.id)).Nodup →
    nl.foldl (fun acc x => insertNlp acc x.1 x.2) (mergedSpec stat ns)
      = mergedSpec stat (ns ++ nl) := by
  intro nl
  induction nl with
  | nil =>
    intro ns _
    rw [List.foldl_nil, List.append_nil]
  | cons y t ih =>
    intro ns hnd
    rw [List.foldl_cons]
    have hy : ∀ z ∈ ns, z.1.id ≠ y.1.id := by
      intro z hz heq
      rw [List.map_append] at hnd
      exact (List.disjoint_of_nodup_append hnd)
        (List.mem_map_of_mem _ hz)
        (heq ▸ (by simp : y.1.id ∈ (y :: t).map (fun x => x.1.id)))
    rw [insert_step stat ns y hst hy]
    have hnd' : (((ns ++ [y]) ++ t).map (fun x => x.1.id)).Nodup := by
      rwa [List.append_assoc, List.singleton_append]
    have hres := ih (ns ++ [y]) hnd'
    rwa [List.append_assoc, List.singleton_append] at hres

/-- The hybrid `all_similar` dict, fused and still unsorted, equals the
claim's by-id union with the `0.6/0.4`-weighted scores. -/
theorem hybrid_merged_eq (stat nlp : List (Player × ℝ))
    (hst : (stat.map (fun x => x.1.id)).Nodup)
    (hnl : (nlp.map (fun x => x.1.id)).Nodup) :
    (nlp.foldl (fun acc x => insertNlp acc x.1 x.2)
        (stat.map (fun x => (x.1, x.2, (0:ℝ))))).map
      (fun e => (e.1, e.2.1 * (6/10) + e.2.2 * (4/10)))
      = hybridSpecFused stat nlp := by
  have h0 : stat.map (fun x => (x.1, x.2, (0:ℝ))) = mergedSpec stat [] := by
    unfold mergedSpec
    simp [lookupScore]
  rw [h0, foldl_insertNlp_spec stat hst nlp [] (by simpa using hnl)]
  show (mergedSpec stat nlp).map _ = _
  unfold mergedSpec hybridSpecFused unionPlayers
  rw [List.map_append, List.map_map, List.map_map, List.map_append, List.map_map]
  congr 1
  · apply List.map_congr_left
    intro x hx
    show (x.1, x.2 * (6/10) + lookupScore nlp x.1.id * (4/10))
        = (x.1, lookupScore stat x.1.id * (6/10) + lookupScore nlp x.1.id * (4/10))
    rw [lookupScore_self stat hst hx]
  · rw [List.filter_map, List.map_map]
    have hpred : nlp.filter ((fun q => !(stat.any (fun x => decide (x.1.id = q.id))))
          ∘ Prod.fst)
        = nlp.filter (fun y => !(stat.any (fun x => decide (x.1.id = y.1.id)))) := by
      apply List.filter_congr
      intro y _
      rfl
    rw [hpred]
    apply List.map_congr_left
    intro y hy
    have hy' : y ∈ nlp := List.mem_of_mem_filter hy
    have hyp := List.of_mem_filter hy
    show (y.1, 0 * (6/10) + y.2 * (4/10))
        = (y.1, lookupScore stat y.1.id * (6/10) + lookupScore nlp y.1.id * (4/10))
    have h1 : lookupScore stat y.1.id = 0 := by
      apply lookupScore_eq_zero
      intro x hx
      simp only [Bool.not_eq_true', List.any_eq_false] at hyp
      have hxy := hyp x hx
      simpa using hxy
    rw [h1, lookupScore_self nlp hnl hy']

theorem sorted_filter_ids_nodup (le : Player → Player → Bool) (pred : Player → Bool)
    (db : List Player) (hnd : (db.map Player.id).Nodup) :
    (((db.filter pred).mergeSort le).map Player.id).Nodup := by
  have h1 : ((db.filter pred).map Player.id).Nodup :=
    List.Nodup.sublist ((List.filter_sublist db).map Player.id) hnd
  exact (((List.mergeSort_perm (db.filter pred) le)).map Player.id).nodup_iff.mpr h1

theorem kept_ids_nodup (pool : List Player) (score : Player → ℝ) (thr : ℝ)
    (h : (pool.map Player.id).Nodup) :
    ((pool.filterMap (keptFn score thr)).map (fun x => x.1.id)).Nodup := by
  have he : (pool.filterMap (keptFn score thr)).map (fun x => x.1.id)
      = ((pool.filterMap (keptFn score thr)).map Prod.fst).map Player.id := by
    rw [List.map_map]
    rfl
  rw [he, map_fst_filterMap_score]
  exact List.Nodup.sublist ((List.filter_sublist pool).map Player.id) h

theorem take_sort_ids_nodup (l : List (Player × ℝ)) (le : (Player × ℝ) → (Player × ℝ) → Bool)
    (limit : ℕ) (h : (l.map (fun x => x.1.id)).Nodup) :
    (((l.mergeSort le).take limit).map (fun x => x.1.id)).Nodup := by
  have h1 : ((l.mergeSort le).map (fun x => x.1.id)).Nodup :=
    ((List.mergeSort_perm l le).map _).nodup_iff.mpr h
  exact List.Nodup.sublist ((List.take_sublist limit _).map _) h1

theorem fallback_ids_nodup (f : Faults) (db : List Player) (p : Player) (limit : ℕ)
    (hnd : (db.map Player.id).Nodup) :
    ((fallback_similarity_search f db p limit).map (fun x => x.1.id)).Nodup := by
  unfold fallback_similarity_search
  split
  · simp
  · unfold fallback_body
    rw [List.map_map]
    have he : ((fun x : Player × ℝ => x.1.id) ∘ (fun q => (q, (1/2:ℝ)))) = Player.id := rfl
    rw [he]
    have h1 : ((fallbackPool db p).map Player.id).Nodup :=
      sorted_filter_ids_nodup gaLe _ db hnd
    exact List.Nodup.sublist ((List.take_sublist limit _).map Player.id) h1

theorem find_statistical_ids_nodup (f : Faults) (db : List Player) (p : Player)
    (limit : ℕ) (thr : ℝ) (hnd : (db.map Player.id).Nodup) :
    ((find_statistical_similarities f db p limit thr).map (fun x => x.1.id)).Nodup := by
  unfold find_statistical_similarities
  split
  · exact fallback_ids_nodup f db p limit hnd
  · unfold find_statistical_body
    apply take_sort_ids_nodup
    exact kept_ids_nodup _ _ _ (sorted_filter_ids_nodup metaLe _ db hnd)

theorem find_nlp_ids_nodup (f : Faults) (db : List Player) (p : Player)
    (limit : ℕ) (thr : ℝ) (hnd : (db.map Player.id).Nodup) :
    ((find_nlp_similarities f db p limit thr).map (fun x => x.1.id)).Nodup := by
  unfold find_nlp_similarities
  split
  · exact fallback_ids_nodup f db p limit hnd
  · unfold find_nlp_body
    apply take_sort_ids_nodup
    exact kept_ids_nodup _ _ _ (sorted_filter_ids_nodup metaLe _ db hnd)

/-- Claim C4: for every target and limit (over a store with distinct
record ids), the hybrid strategy runs the statistical and NLP strategies
with limit `2×limit` each, unions their candidates by id with score
`0.0` substituted for a missing dimension, assigns each candidate the
fused score `0.6·statistical + 0.4·nlp`, sorts descending by fused
score, truncates to `limit`, and applies no similarity-threshold filter
to the fused scores (the sorted list is a permutation of the whole fused
union). -/
theorem C4_hybrid_fusion (db : List Player) (p : Player) (limit : ℕ) (thr : ℝ)
    (hnd : (db.map Player.id).Nodup) :
    find_hybrid_similarities noFaults db p limit thr
      = hybrid_body (find_statistical_similarities noFaults db p (limit * 2) thr)
          (find_nlp_similarities noFaults db p (limit * 2) thr) limit
    ∧ ∃ l : List (Player × ℝ),
        l.Perm (hybridSpecFused
          (find_statistical_similarities noFaults db p (limit * 2) thr)
          (find_nlp_similarities noFaults db p (limit * 2) thr))
        ∧ l.Pairwise (fun a b => b.2 ≤ a.2)
        ∧ find_hybrid_similarities noFaults db p limit thr = l.take limit := by
  refine ⟨rfl, ?_⟩
  have hst := find_statistical_ids_nodup noFaults db p (limit * 2) thr hnd
  have hnl := find_nlp_ids_nodup noFaults db p (limit * 2) thr hnd
  refine ⟨(((find_nlp_similarities noFaults db p (limit * 2) thr).foldl
      (fun acc x => insertNlp acc x.1 x.2)
      ((find_statistical_similarities noFaults db p (limit * 2) thr).map
        (fun x => (x.1, x.2, (0:ℝ))))).map
      (fun e => (e.1, e.2.1 * (6/10) + e.2.2 * (4/10)))).mergeSort scoreDesc,
    ?_, ?_, ?_⟩
  · exact (List.mergeSort_perm _ _).trans
      (List.Perm.of_eq (hybrid_merged_eq _ _ hst hnl))
  · have hs := List.sorted_mergeSort (leBy_trans (fun x : Player × ℝ => OrderDual.toDual x.2))
      (leBy_total (fun x : Player × ℝ => OrderDual.toDual x.2))
      (((find_nlp_similarities noFaults db p (limit * 2) thr).foldl
        (fun acc x => insertNlp acc x.1 x.2)
        ((find_statistical_similarities noFaults db p (limit * 2) thr).map
          (fun x => (x.1, x.2, (0:ℝ))))).map
        (fun e => (e.1, e.2.1 * (6/10) + e.2.2 * (4/10))))
    refine hs.imp ?_
    intro a b h
    simpa [leBy] using h
  · rfl

theorem C4_hybrid_fusion_witness :
    find_hybrid_similarities noFaults [] P0 3 (7/10)
      = hybrid_body (find_statistical_similarities noFaults [] P0 (3 * 2) (7/10))
          (find_nlp_similarities noFaults [] P0 (3 * 2) (7/10)) 3
    ∧ ∃ l : List (Player × ℝ),
        l.Perm (hybridSpecFused
          (find_statistical_similarities noFaults [] P0 (3 * 2) (7/10))
          (find_nlp_similarities noFaults [] P0 (3 * 2) (7/10)))
        ∧ l.Pairwise (fun a b => b.2 ≤ a.2)
        ∧ find_hybrid_similarities noFaults [] P0 3 (7/10) = l.take 3 :=
  C4_hybrid_fusion [] P0 3 (7/10) (by simp)
